import Mathlib

/-! # A shallow embedding of `queue.c`

The queue of `queue.c` is a singly linked chain of `list_ele_t` nodes owned by a
`queue_t` record.  The embedding keeps the pointer structure of the C code:

* a pointer is a natural number, `0` is `NULL`;
* the heap maps the address of every live `list_ele_t` to its contents;
* every C function becomes a Lean function that passes the heap (and the
  `queue_t` record the pointer `q` refers to) explicitly;
* a function returns `none` when the C code would dereference `NULL` or a
  dangling pointer, write outside a buffer, or when a loop runs out of fuel.
-/

namespace Queue

/-! ## Data model -/

/-- A pointer to a `list_ele_t`; `0` is `NULL`. -/
abbrev Ptr := Nat

/-- The largest value of a `size_t`, `2 ^ 64 - 1`: arithmetic on `size_t` wraps around it. -/
abbrev SIZE_MAX : Nat := 18446744073709551615

/-- The successor `x + 1` of a `size_t`: it wraps to `0` after `SIZE_MAX`. -/
def sizeSucc (x : Nat) : Nat := if x = SIZE_MAX then 0 else x + 1

/-- The predecessor `x - 1` of a `size_t`: it wraps to `SIZE_MAX` at `0`. -/
def sizePred (x : Nat) : Nat := if x = 0 then SIZE_MAX else x - 1

/-- The conversion of an `int` to `size_t`: the value modulo `2 ^ 64`. -/
def toSizeT (x : Int) : Nat := (x % 18446744073709551616).toNat

/-- A C string: the bytes before the terminating NUL, none of which is NUL. -/
structure CStr where
  bytes : List Nat
  noNUL : ∀ b ∈ bytes, b ≠ 0

instance : DecidableEq CStr := fun a b =>
  match a, b with
  | ⟨x, _⟩, ⟨y, _⟩ =>
    if h : x = y then isTrue (by subst h; rfl)
    else isFalse (fun e => h (congrArg CStr.bytes e))

/-- Modelled from the spec: `list_ele_t` is declared in `queue.h`, which is not part of the
sources.  A node owns one text value (the code stores it in the node's own allocation, at
`newh->value`) and a link to the next node. -/
structure list_ele_t where
  value : CStr
  next : Ptr
deriving DecidableEq

/-- Modelled from the spec: `queue_t` is declared in `queue.h`, which is not part of the
sources.  A queue holds `head`, `tail` and `size`; the size is a signed count (`q_size`
returns it as an `int`) whose overflow is not modelled. -/
structure queue_t where
  head : Ptr
  tail : Ptr
  size : Int
deriving DecidableEq

/-- The heap of list elements: the contents of every live node. -/
abbrev Heap := Ptr → Option list_ele_t

/-- The heap without any live node. -/
def emptyHeap : Heap := fun _ => none

/-- Reading `*p`: undefined for `NULL` and for an address that holds no live node. -/
def deref (h : Heap) (p : Ptr) : Option list_ele_t :=
  if p = 0 then none else h p

/-- The heap after writing (or, with `none`, freeing) the node at `p`. -/
def upd (h : Heap) (p : Ptr) (v : Option list_ele_t) : Heap :=
  fun x => if x = p then v else h x

/-! ## The C library functions used by `queue.c` -/

/-- `strlen`. -/
def strlen (s : CStr) : Nat := s.bytes.length

/-- `tolower` in the C locale. -/
def tolower (c : Nat) : Nat := if 65 ≤ c ∧ c ≤ 90 then c + 32 else c

/-- `strcasecmp` on the bytes of two strings: the difference of the first pair of bytes that
differ after case folding, the terminating NUL of the shorter string included. -/
def strcasecmpBytes : List Nat → List Nat → Int
  | [], [] => 0
  | [], b :: _ => 0 - (tolower b : Int)
  | a :: _, [] => (tolower a : Int) - 0
  | a :: as, b :: bs =>
    if tolower a = tolower b then strcasecmpBytes as bs
    else (tolower a : Int) - (tolower b : Int)

/-- `strcasecmp`. -/
def strcasecmp (s t : CStr) : Int := strcasecmpBytes s.bytes t.bytes

/-- `strncpy(dst, src, n)` on a destination buffer of `dst.length` bytes: the first `n` bytes
of the buffer become the bytes of `src`, cut after `n` bytes or padded with NULs up to `n`
bytes.  Writing `n` bytes into a shorter buffer is undefined. -/
def strncpy (dst : List Nat) (src : CStr) (n : Nat) : Option (List Nat) :=
  if n ≤ dst.length then
    some (src.bytes.take n ++ List.replicate (n - src.bytes.length) 0 ++ dst.drop n)
  else none

/-- The assignment `sp[i] = c`; undefined outside the buffer. -/
def storeByte (sp : List Nat) (i : Nat) (c : Nat) : Option (List Nat) :=
  if i < sp.length then some (sp.set i c) else none

/-! ## The queue operations -/

/-- `q_new`: `ok` tells whether `malloc` succeeds. -/
def q_new (ok : Bool) : Option queue_t :=
  if ok then some { head := 0, tail := 0, size := 0 } else none

/-- `q_insert_head`: `newh` is the address returned by `malloc` (`0` when it fails).  The
`strncpy` of `strlen(s) + 1` bytes copies the whole of `s` into the new node. -/
def q_insert_head (h : Heap) (q : Option queue_t) (s : CStr) (newh : Ptr) :
    Option (Heap × Option queue_t × Bool) :=
  match q with
  | none => some (h, none, false)
  | some q =>
    if newh = 0 then some (h, some q, false)
    else
      let h1 := upd h newh (some { value := s, next := q.head })
      let q1 := { q with head := newh }
      let q2 := if q1.tail = 0 then { q1 with tail := q1.head } else q1
      some (h1, some { q2 with size := q2.size + 1 }, true)

/-- `q_insert_tail`: `newh` is the address returned by `malloc` (`0` when it fails). -/
def q_insert_tail (h : Heap) (q : Option queue_t) (s : CStr) (newh : Ptr) :
    Option (Heap × Option queue_t × Bool) :=
  match q with
  | none => some (h, none, false)
  | some q =>
    if newh = 0 then some (h, some q, false)
    else
      let h1 := upd h newh (some { value := s, next := 0 })
      if q.tail = 0 then
        some (h1, some { head := newh, tail := newh, size := q.size + 1 }, true)
      else
        match deref h1 q.tail with
        | none => none
        | some t =>
          some (upd h1 q.tail (some { t with next := newh }),
            some { head := q.head, tail := newh, size := q.size + 1 }, true)

/-- The copy into the caller's buffer in `q_remove_head`, lines 109-112:
`length = strlen(value) + 1; length = bufsize < length ? bufsize : length;`
`strncpy(sp, value, length - 1); sp[length - 1] = 0`, all in `size_t`. -/
def copyOut (sp : List Nat) (value : CStr) (bufsize : Nat) : Option (List Nat) :=
  let length := sizeSucc (strlen value)
  let length := if bufsize < length then bufsize else length
  match strncpy sp value (sizePred length) with
  | none => none
  | some sp1 => storeByte sp1 (sizePred length) 0

/-- `q_remove_head`: `sp` is `none` for a `NULL` buffer and otherwise the bytes of the
caller's buffer.  Returns the heap, the queue, the buffer and the return value. -/
def q_remove_head (h : Heap) (q : Option queue_t) (sp : Option (List Nat)) (bufsize : Nat) :
    Option (Heap × Option queue_t × Option (List Nat) × Bool) :=
  match q with
  | none => some (h, none, sp, false)
  | some q =>
    if q.head = 0 then some (h, some q, sp, false)
    else
      match deref h q.head with
      | none => none
      | some e =>
        let out : Option (Option (List Nat)) :=
          match sp with
          | none => some none
          | some buf => (copyOut buf e.value bufsize).map some
        match out with
        | none => none
        | some sp1 =>
          let tmp := q.head
          let q1 := { q with head := e.next }
          let h1 := upd h tmp none
          let q2 := if q1.head = 0 then { q1 with tail := 0 } else q1
          some (h1, some { q2 with size := q2.size - 1 }, sp1, true)

/-- `q_free`: the loop `while (q->head) q_remove_head(q, NULL, 0)`, then the queue record is
freed.  Returns the heap that is left. -/
def q_free : Nat → Heap → Option queue_t → Option Heap
  | _, h, none => some h
  | 0, _, some _ => none
  | fuel + 1, h, some q =>
    if q.head ≠ 0 then
      match q_remove_head h (some q) none 0 with
      | none => none
      | some (h1, q1, _, _) => q_free fuel h1 q1
    else some h

/-- `q_size`. -/
def q_size (q : Option queue_t) : Int :=
  match q with
  | none => 0
  | some q => q.size

/-- The loop of `q_reverse`: `head` is `q->head`, and the loop ends when `curr` is `NULL`. -/
def q_reverse_loop : Nat → Heap → Ptr → Ptr → Option (Heap × Ptr)
  | 0, _, _, _ => none
  | fuel + 1, h, head, curr =>
    if curr = 0 then some (h, head)
    else
      match deref h curr with
      | none => none
      | some e => q_reverse_loop fuel (upd h curr (some { e with next := head })) curr e.next

/-- `q_reverse`. -/
def q_reverse (fuel : Nat) (h : Heap) (q : Option queue_t) : Option (Heap × Option queue_t) :=
  match q with
  | none => some (h, none)
  | some q =>
    match q_reverse_loop fuel h 0 q.head with
    | none => none
    | some (h1, head1) => some (h1, some { head := head1, tail := q.head, size := q.size })

/-- The walk `walk = walk->next`, repeated `n` times. -/
def walkSteps : Nat → Heap → Ptr → Option Ptr
  | 0, _, walk => some walk
  | n + 1, h, walk =>
    match deref h walk with
    | none => none
    | some e => walkSteps n h e.next

/-- `q_split`: the loop `while (--step)` runs its body `step - 1` times, computed in
`size_t` (so `SIZE_MAX` times when `step` is `0`). -/
def q_split (h : Heap) (walk : Ptr) (step : Nat) : Option (Heap × Ptr) :=
  match walkSteps (sizePred step) h walk with
  | none => none
  | some w =>
    match deref h w with
    | none => none
    | some e => some (upd h w (some { e with next := 0 }), e.next)

/-- What a `list_ele_t **` of `q_merge_sorted_list` can point to: the variable its caller
passed the address of (`&q->head` or `&mid`), or the `next` field of a node. -/
inductive Loc where
  | root : Loc
  | next : Ptr → Loc
deriving DecidableEq

/-- Reading `*head`; `root` is the current content of the caller's variable. -/
def load (h : Heap) (root : Ptr) : Loc → Option Ptr
  | Loc.root => some root
  | Loc.next p => (deref h p).map (fun e => e.next)

/-- The assignment `*head = v`. -/
def store (h : Heap) (root : Ptr) : Loc → Ptr → Option (Heap × Ptr)
  | Loc.root, v => some (h, v)
  | Loc.next p, v =>
    match deref h p with
    | none => none
    | some e => some (upd h p (some { e with next := v }), root)

/-- The first loop of `q_merge_sorted_list`, lines 171-180. -/
def mergeLoop : Nat → Heap → Ptr → Loc → Ptr → Ptr → Option (Heap × Ptr × Loc × Ptr × Ptr)
  | 0, _, _, _, _, _ => none
  | fuel + 1, h, root, head, first, second =>
    if first ≠ 0 ∧ second ≠ 0 then
      match deref h first, deref h second with
      | some f, some s =>
        if strcasecmp f.value s.value < 0 then
          match store h root head first with
          | none => none
          | some (h1, root1) =>
            match deref h1 first with
            | none => none
            | some f1 => mergeLoop fuel h1 root1 (Loc.next first) f1.next second
        else
          match store h root head second with
          | none => none
          | some (h1, root1) =>
            match deref h1 second with
            | none => none
            | some s1 => mergeLoop fuel h1 root1 (Loc.next second) first s1.next
      | _, _ => none
    else some (h, root, head, first, second)

/-- The second loop of `q_merge_sorted_list`, lines 186-188: walk to the last node and
return it. -/
def lastLoop : Nat → Heap → Ptr → Loc → Option Ptr
  | 0, _, _, _ => none
  | fuel + 1, h, root, head =>
    match load h root head with
    | none => none
    | some p =>
      match deref h p with
      | none => none
      | some e => if e.next ≠ 0 then lastLoop fuel h root (Loc.next p) else some p

/-- `q_merge_sorted_list(head, first, second)`: `root` is the content of the variable `head`
points to.  Returns the heap, the new content of that variable and the returned node. -/
def q_merge_sorted_list (fuel : Nat) (h : Heap) (root : Ptr) (first second : Ptr) :
    Option (Heap × Ptr × Ptr) :=
  match mergeLoop fuel h root Loc.root first second with
  | none => none
  | some (h1, root1, head1, first1, second1) =>
    match store h1 root1 head1 (if first1 ≠ 0 then first1 else second1) with
    | none => none
    | some (h2, root2) =>
      match lastLoop fuel h2 root2 head1 with
      | none => none
      | some t => some (h2, root2, t)

/-- `merge_sort(head, size)`: `root` is `*head` on entry.  Returns the heap, `*head` on
return and the returned node. -/
def merge_sort : Nat → Heap → Ptr → Nat → Option (Heap × Ptr × Ptr)
  | 0, _, _, _ => none
  | fuel + 1, h, root, size =>
    if size < 2 then some (h, root, root)
    else
      let rl := size / 2
      let ll := size - rl
      match q_split h root ll with
      | none => none
      | some (h1, mid) =>
        match merge_sort fuel h1 root ll with
        | none => none
        | some (h2, root2, _) =>
          match merge_sort fuel h2 mid rl with
          | none => none
          | some (h3, mid3, _) => q_merge_sorted_list fuel h3 root2 root2 mid3

/-- `q_sort`: the `size` field is converted to `size_t` for the call. -/
def q_sort (fuel : Nat) (h : Heap) (q : Option queue_t) : Option (Heap × Option queue_t) :=
  match q with
  | none => some (h, none)
  | some q =>
    match merge_sort fuel h q.head (toSizeT q.size) with
    | none => none
    | some (h1, head1, t) => some (h1, some { head := head1, tail := t, size := q.size })

/-! ## Chains of nodes -/

/-- A node as the queue's user sees it: its address and the value it holds. -/
abbrev Node := Ptr × CStr

/-- The address of the first node of a list of nodes, `NULL` for the empty list. -/
def headPtr : List Node → Ptr
  | [] => 0
  | n :: _ => n.1

/-- The address of the last node of a list of nodes, `NULL` for the empty list. -/
def lastPtr : List Node → Ptr
  | [] => 0
  | [n] => n.1
  | _ :: m :: ns => lastPtr (m :: ns)

/-- The addresses of a list of nodes. -/
def ptrs (ns : List Node) : List Ptr := ns.map Prod.fst

/-- The values of a list of nodes: the sequence of the queue from head to tail. -/
def values (ns : List Node) : List CStr := ns.map Prod.snd

/-- The heap holds the nodes `ns` as a chain: every node is live, holds its value, links to
the next node of the list, and the last node's link is `NULL`.  The chain starts at
`headPtr ns`. -/
def isChain (h : Heap) : List Node → Prop
  | [] => True
  | n :: ns => n.1 ≠ 0 ∧ h n.1 = some { value := n.2, next := headPtr ns } ∧ isChain h ns

instance isChainDecidable (h : Heap) : (ns : List Node) → Decidable (isChain h ns)
  | [] => isTrue trivial
  | n :: ns =>
    match isChainDecidable h ns with
    | isTrue t =>
      if c : n.1 ≠ 0 ∧ h n.1 = some { value := n.2, next := headPtr ns } then
        isTrue ⟨c.1, c.2, t⟩
      else isFalse (fun x => c ⟨x.1, x.2.1⟩)
    | isFalse f => isFalse (fun x => f x.2.2)

/-- The data-model invariants of a queue whose chain is `ns`: `head` starts the chain, `tail`
is its last node (`NULL` when it is empty) and `size` is its length. -/
def queueInv (h : Heap) (q : queue_t) (ns : List Node) : Prop :=
  isChain h ns ∧ q.head = headPtr ns ∧ q.tail = lastPtr ns ∧ q.size = (ns.length : Int)

instance (h : Heap) (q : queue_t) (ns : List Node) : Decidable (queueInv h q ns) := by
  unfold queueInv
  exact inferInstance

/-- The key `strcasecmp` compares two strings by: their case-folded bytes. -/
def key (s : CStr) : List Nat := s.bytes.map tolower

/-- The merge of `q_merge_sorted_list` on lists of nodes: the front node of the first list
is taken when it compares less than the front node of the second, the front node of the
second list otherwise. -/
def mergeL : List Node → List Node → List Node
  | [], l2 => l2
  | a :: as, [] => a :: as
  | a :: as, b :: bs =>
    if strcasecmp a.2 b.2 < 0 then a :: mergeL as (b :: bs)
    else b :: mergeL (a :: as) bs
termination_by l1 l2 => l1.length + l2.length

/-- The sort of `merge_sort` on lists of nodes: the list is cut after its first
`size - size / 2` nodes, both parts are sorted and merged. -/
def msortL (ns : List Node) : List Node :=
  if h : ns.length < 2 then ns
  else
    mergeL (msortL (ns.take (ns.length - ns.length / 2)))
      (msortL (ns.drop (ns.length - ns.length / 2)))
termination_by ns.length
decreasing_by
  · simp only [List.length_take]; omega
  · simp only [List.length_drop]; omega

/-! ## Predicates used to specify `q_merge_sorted_list` -/

/-- The place `loc` can be written to and is no node of the list `l`. -/
def locOk (h : Heap) (l : List Node) : Loc → Prop
  | Loc.root => True
  | Loc.next p => p ≠ 0 ∧ h p ≠ none ∧ p ∉ ptrs l

/-- What `*loc = v` leaves behind: in heap `h2` with root `root2`, the place `loc` of heap `h`
with root `root` holds `v`, and nothing else changed outside the nodes `l`. -/
def storedAt (h : Heap) (root : Ptr) (l : List Node) (loc : Loc) (v : Ptr)
    (h2 : Heap) (root2 : Ptr) : Prop :=
  match loc with
  | Loc.root => root2 = v ∧ ∀ x, x ∉ ptrs l → h2 x = h x
  | Loc.next p => root2 = root ∧ (∃ e, h p = some e ∧ h2 p = some { value := e.value, next := v })
      ∧ ∀ x, x ∉ ptrs l → x ≠ p → h2 x = h x

/-! ## Sequences of calls, used to state scenarios -/

/-- The string a caller reads from a buffer: the bytes before the first NUL. -/
def bufStr (buf : List Nat) : List Nat := buf.takeWhile (fun b => b ≠ 0)

/-- The calls `q_insert_tail(q, s)` for each `(p, s)` of the list in turn, where `p` is the
address `malloc` returns in that call; every call has to return true. -/
def insertTails (h : Heap) (q : Option queue_t) : List Node → Option (Heap × Option queue_t)
  | [] => some (h, q)
  | n :: rest =>
    match q_insert_tail h q n.2 n.1 with
    | some (h1, q1, true) => insertTails h1 q1 rest
    | _ => none

/-- The calls `q_insert_head(q, s)` for each `(p, s)` of the list in turn, where `p` is the
address `malloc` returns in that call; every call has to return true. -/
def insertHeads (h : Heap) (q : Option queue_t) : List Node → Option (Heap × Option queue_t)
  | [] => some (h, q)
  | n :: rest =>
    match q_insert_head h q n.2 n.1 with
    | some (h1, q1, true) => insertHeads h1 q1 rest
    | _ => none

/-- The call `q_remove_head(q, buf, c)` made `k` times, each time with a buffer holding the
bytes `buf`; every call has to return true.  Returns the final heap and queue and the
contents of the buffers after the calls. -/
def removeHeads (buf : List Nat) (c : Nat) :
    Nat → Heap → Option queue_t → Option (Heap × Option queue_t × List (List Nat))
  | 0, h, q => some (h, q, [])
  | k + 1, h, q =>
    match q_remove_head h q (some buf) c with
    | some (h1, q1, some res, true) =>
      match removeHeads buf c k h1 q1 with
      | some (h2, q2, outs) => some (h2, q2, res :: outs)
      | none => none
    | _ => none

/-- The string "banana". -/
def banana : CStr := ⟨[98, 97, 110, 97, 110, 97], by decide⟩

/-- The string "Banana". -/
def Banana : CStr := ⟨[66, 97, 110, 97, 110, 97], by decide⟩

/-- The string "Apple". -/
def Apple : CStr := ⟨[65, 112, 112, 108, 101], by decide⟩

/-- The string "cherry". -/
def cherry : CStr := ⟨[99, 104, 101, 114, 114, 121], by decide⟩

/-- The string "a". -/
def str_a : CStr := ⟨[97], by decide⟩

/-- The string "b". -/
def str_b : CStr := ⟨[98], by decide⟩

/-- The string "c". -/
def str_c : CStr := ⟨[99], by decide⟩

/-- The string "A". -/
def str_A : CStr := ⟨[65], by decide⟩

/-- The heap and queue record a sequence of calls leaves behind; the empty heap and record
if a call of the sequence failed. -/
def stateOf (r : Option (Heap × Option queue_t)) : Heap × queue_t :=
  match r with
  | some (h, some q) => (h, q)
  | _ => (emptyHeap, { head := 0, tail := 0, size := 0 })

/-- The queue after `insert_tail "banana"`, `insert_tail "Apple"`, `insert_tail "cherry"` on a
new queue, with `malloc` returning the addresses 1, 2 and 3. -/
def fruitState : Heap × queue_t :=
  stateOf (insertTails emptyHeap (q_new true) [(1, banana), (2, Apple), (3, cherry)])

/-- The queue after `insert_tail "Banana"`, `insert_tail "banana"` on a new queue. -/
def tieState : Heap × queue_t :=
  stateOf (insertTails emptyHeap (q_new true) [(1, Banana), (2, banana)])

/-- The queue after `insert_tail "a"`, `insert_tail "A"` on a new queue. -/
def caseState : Heap × queue_t :=
  stateOf (insertTails emptyHeap (q_new true) [(1, str_a), (2, str_A)])

/-- The queue after `insert_head "a"`, `insert_head "b"`, `insert_head "c"` on a new queue. -/
def abcState : Heap × queue_t :=
  stateOf (insertHeads emptyHeap (q_new true) [(1, str_a), (2, str_b), (3, str_c)])

/-- The queue after `insert_tail` of "Apple", "banana", "banana", "cherry" on a new queue. -/
def sortedState : Heap × queue_t :=
  stateOf (insertTails emptyHeap (q_new true)
    [(1, Apple), (2, banana), (3, banana), (4, cherry)])

/-- The queue after `insert_tail "a"` on a new queue. -/
def oneState : Heap × queue_t :=
  stateOf (insertTails emptyHeap (q_new true) [(1, str_a)])

/-- The number of bytes of the value `s` that `q_remove_head` copies into a buffer of
capacity `c > 0`: at most `c - 1`, and no more than the string has. -/
def copyLen (c : Nat) (s : CStr) : Nat := min (c - 1) (strlen s)

/-! ## The stable sort the sort is compared with -/

/-- Insertion into a list that ascends under `strcasecmp`: the node `a` is put in front of
the first node whose value is not smaller, so in front of the nodes that compare equal. -/
def insertStable (a : Node) : List Node → List Node
  | [] => [a]
  | b :: l => if strcasecmp a.2 b.2 ≤ 0 then a :: b :: l else b :: insertStable a l

/-- The stable ascending sort of a list of nodes under `strcasecmp` (insertion sort from the
right): nodes whose values compare equal keep their relative order. -/
def stableSort : List Node → List Node
  | [] => []
  | a :: l => insertStable a (stableSort l)

/-! ## Sequences of calls of the queue operations -/

/-- One call of a queue operation together with what its environment supplies: the string
and the address `malloc` returns (`0` when it fails) for an insertion, the caller's buffer
and capacity for a removal, the fuel of the loops for `q_reverse` and `q_sort`. -/
inductive Op where
  | insertHead (s : CStr) (newh : Ptr)
  | insertTail (s : CStr) (newh : Ptr)
  | removeHead (sp : Option (List Nat)) (bufsize : Nat)
  | reverse (fuel : Nat)
  | sort (fuel : Nat)

/-- The call `op` on the queue `q` in heap `h`: the heap and the queue it leaves and its
return value (`true` for the functions that return nothing). -/
def runOp (h : Heap) (q : Option queue_t) : Op → Option (Heap × Option queue_t × Bool)
  | Op.insertHead s newh => q_insert_head h q s newh
  | Op.insertTail s newh => q_insert_tail h q s newh
  | Op.removeHead sp bufsize =>
    match q_remove_head h q sp bufsize with
    | none => none
    | some (h1, q1, _, ret) => some (h1, q1, ret)
  | Op.reverse fuel =>
    match q_reverse fuel h q with
    | none => none
    | some (h1, q1) => some (h1, q1, true)
  | Op.sort fuel =>
    match q_sort fuel h q with
    | none => none
    | some (h1, q1) => some (h1, q1, true)

/-- Counts 1 for an insertion that returned true. -/
def insCount : Op → Bool → Nat
  | Op.insertHead _ _, true => 1
  | Op.insertTail _ _, true => 1
  | _, _ => 0

/-- Counts 1 for a removal that returned true. -/
def remCount : Op → Bool → Nat
  | Op.removeHead _ _, true => 1
  | _, _ => 0

/-- The calls `ops` in turn: the final heap and queue, the number of insertions that
returned true and the number of removals that returned true. -/
def runOps : List Op → Heap → Option queue_t → Option (Heap × Option queue_t × Nat × Nat)
  | [], h, q => some (h, q, 0, 0)
  | op :: ops, h, q =>
    match runOp h q op with
    | none => none
    | some (h1, q1, ret) =>
      match runOps ops h1 q1 with
      | none => none
      | some (h2, q2, i, r) => some (h2, q2, i + insCount op ret, r + remCount op ret)

/-- The `head` field of a queue, `NULL` for a null queue: `q_remove_head` returns false at
once, without a look at the buffer, exactly when it is `NULL`. -/
def headOf : Option queue_t → Ptr
  | none => 0
  | some q => q.head

/-- What a call may rely on: `malloc` returns `NULL` or the address of no live node, and the
string fits the address space; a non-null buffer handed to `q_remove_head` on a non-empty
queue has at least `bufsize > 0` bytes (on a null or empty queue any buffer and capacity
will do); the loops get enough fuel, and the size passed to `merge_sort` fits a `size_t`. -/
def admissible (h : Heap) (q : Option queue_t) : Op → Prop
  | Op.insertHead s newh => strlen s < SIZE_MAX ∧ (newh = 0 ∨ h newh = none)
  | Op.insertTail s newh => strlen s < SIZE_MAX ∧ (newh = 0 ∨ h newh = none)
  | Op.removeHead none _ => True
  | Op.removeHead (some buf) bufsize => headOf q = 0 ∨ (0 < bufsize ∧ bufsize ≤ buf.length)
  | Op.reverse fuel => (q_size q).toNat < fuel
  | Op.sort fuel => (q_size q).toNat + 1 < fuel ∧ (q_size q).toNat ≤ SIZE_MAX

instance admissibleDecidable (h : Heap) (q : Option queue_t) :
    (op : Op) → Decidable (admissible h q op)
  | Op.insertHead s newh =>
    inferInstanceAs (Decidable (strlen s < SIZE_MAX ∧ (newh = 0 ∨ h newh = none)))
  | Op.insertTail s newh =>
    inferInstanceAs (Decidable (strlen s < SIZE_MAX ∧ (newh = 0 ∨ h newh = none)))
  | Op.removeHead none _ => isTrue trivial
  | Op.removeHead (some buf) bufsize =>
    inferInstanceAs (Decidable (headOf q = 0 ∨ (0 < bufsize ∧ bufsize ≤ buf.length)))
  | Op.reverse fuel => inferInstanceAs (Decidable ((q_size q).toNat < fuel))
  | Op.sort fuel =>
    inferInstanceAs (Decidable ((q_size q).toNat + 1 < fuel ∧ (q_size q).toNat ≤ SIZE_MAX))

/-- Every call of the sequence is admissible in the state it is made in. -/
def admissibleRun : List Op → Heap → Option queue_t → Prop
  | [], _, _ => True
  | op :: ops, h, q => admissible h q op ∧ ∀ r ∈ runOp h q op, admissibleRun ops r.1 r.2.1

instance admissibleRunDecidable :
    (ops : List Op) → (h : Heap) → (q : Option queue_t) → Decidable (admissibleRun ops h q)
  | [], _, _ => isTrue trivial
  | op :: ops, h, q =>
    have : ∀ r : Heap × Option queue_t × Bool, Decidable (admissibleRun ops r.1 r.2.1) :=
      fun r => admissibleRunDecidable ops r.1 r.2.1
    inferInstanceAs (Decidable (admissible h q op ∧
      ∀ r ∈ runOp h q op, admissibleRun ops r.1 r.2.1))

/-- The data-model invariants of a queue that may be null: a non-null queue has a chain whose
strings fit the address space. -/
def stateInv (h : Heap) : Option queue_t → Prop
  | none => True
  | some q => ∃ ns, queueInv h q ns ∧ ∀ n ∈ ns, strlen n.2 < SIZE_MAX

/-- A sequence of calls on a new queue: a removal with a non-null buffer and capacity 0 on the
empty queue, two insertions, an allocation failure, a sort, a removal into a buffer, a
reversal and an insertion.  It ends with the queue "banana", "cherry". -/
def exampleOps : List Op :=
  [Op.removeHead (some [1, 2, 3]) 0, Op.insertTail banana 1, Op.insertHead Apple 2,
    Op.insertTail cherry 0, Op.sort 5, Op.removeHead (some [255, 255, 255, 255]) 4,
    Op.reverse 4, Op.insertTail cherry 3]

/-- The sequence of calls at which the code fails: `insert_tail "a"` on a new queue, then
`q_remove_head` with a non-null buffer of one byte and capacity 0. -/
def zeroCapacityOps : List Op :=
  [Op.insertTail str_a 1, Op.removeHead (some [170]) 0]

/-- The same sequence with a `NULL` buffer in place of the non-null one. -/
def nullBufferOps : List Op :=
  [Op.insertTail str_a 1, Op.removeHead none 0]

theorem tolower_ne_zero {c : Nat} (hc : c ≠ 0) : tolower c ≠ 0 := by
  unfold tolower
  split <;> omega

theorem lex_cons_iff (a b : Nat) (as bs : List Nat) :
    a :: as < b :: bs ↔ a < b ∨ (a = b ∧ as < bs) := by
  constructor
  · intro h
    cases h with
    | cons h => exact Or.inr ⟨rfl, h⟩
    | rel h => exact Or.inl h
  · rintro (h | ⟨rfl, h⟩)
    · exact List.Lex.rel h
    · exact List.Lex.cons h

theorem strcasecmpBytes_neg_iff (s t : List Nat) (ht : ∀ b ∈ t, b ≠ 0) :
    strcasecmpBytes s t < 0 ↔ s.map tolower < t.map tolower := by
  induction s generalizing t with
  | nil =>
    cases t with
    | nil => simp [strcasecmpBytes]
    | cons b bs =>
      have hb : tolower b ≠ 0 := tolower_ne_zero (ht b (List.mem_cons_self _ _))
      simp only [strcasecmpBytes, List.map_nil, List.map_cons]
      constructor
      · intro _; exact List.nil_lt_cons _ _
      · intro _; omega
  | cons a as ih =>
    cases t with
    | nil =>
      simp only [strcasecmpBytes, List.map_nil, List.map_cons]
      constructor
      · intro h; omega
      · intro h; exact absurd h (List.Lex.not_nil_right _ _)
    | cons b bs =>
      have hbs : ∀ c ∈ bs, c ≠ 0 := fun c hc => ht c (List.mem_cons_of_mem _ hc)
      simp only [strcasecmpBytes, List.map_cons, lex_cons_iff]
      by_cases hab : tolower a = tolower b
      · simp only [hab, if_true, lt_irrefl, true_and, false_or]
        exact ih bs hbs
      · simp only [hab, if_false, false_and, or_false]
        omega

theorem strcasecmpBytes_eq_zero_iff (s t : List Nat) (hs : ∀ b ∈ s, b ≠ 0)
    (ht : ∀ b ∈ t, b ≠ 0) :
    strcasecmpBytes s t = 0 ↔ s.map tolower = t.map tolower := by
  induction s generalizing t with
  | nil =>
    cases t with
    | nil => simp [strcasecmpBytes]
    | cons b bs =>
      have hb : tolower b ≠ 0 := tolower_ne_zero (ht b (List.mem_cons_self _ _))
      simp only [strcasecmpBytes, List.map_nil, List.map_cons]
      constructor
      · intro h; omega
      · intro h; exact absurd h (by simp)
  | cons a as ih =>
    have has : ∀ c ∈ as, c ≠ 0 := fun c hc => hs c (List.mem_cons_of_mem _ hc)
    have ha : tolower a ≠ 0 := tolower_ne_zero (hs a (List.mem_cons_self _ _))
    cases t with
    | nil =>
      simp only [strcasecmpBytes, List.map_nil, List.map_cons]
      constructor
      · intro h; omega
      · intro h; exact absurd h (by simp)
    | cons b bs =>
      have hbs : ∀ c ∈ bs, c ≠ 0 := fun c hc => ht c (List.mem_cons_of_mem _ hc)
      simp only [strcasecmpBytes, List.map_cons, List.cons.injEq]
      by_cases hab : tolower a = tolower b
      · simp only [hab, if_true, true_and]
        exact ih bs has hbs
      · simp only [hab, if_false, false_and, iff_false]
        omega

/-- `strcasecmp` is negative exactly when the first key is smaller. -/
theorem strcasecmp_neg_iff (s t : CStr) : strcasecmp s t < 0 ↔ key s < key t :=
  strcasecmpBytes_neg_iff s.bytes t.bytes t.noNUL

/-- `strcasecmp` is zero exactly when the keys are equal. -/
theorem strcasecmp_eq_zero_iff (s t : CStr) : strcasecmp s t = 0 ↔ key s = key t :=
  strcasecmpBytes_eq_zero_iff s.bytes t.bytes s.noNUL t.noNUL

/-- `strcasecmp` is at most zero exactly when the first key is at most the second. -/
theorem strcasecmp_le_iff (s t : CStr) : strcasecmp s t ≤ 0 ↔ key s ≤ key t := by
  rw [le_iff_lt_or_eq, le_iff_lt_or_eq, strcasecmp_neg_iff, strcasecmp_eq_zero_iff]


/-! ## Chains: frame, uniqueness, distinct addresses -/

theorem upd_same (h : Heap) (p : Ptr) (v : Option list_ele_t) : upd h p v p = v := by
  simp [upd]

theorem upd_other (h : Heap) {p x : Ptr} (v : Option list_ele_t) (hx : x ≠ p) :
    upd h p v x = h x := by
  simp [upd, hx]

theorem isChain_congr {h h' : Heap} {ns : List Node} (hh : ∀ p ∈ ptrs ns, h' p = h p)
    (hc : isChain h ns) : isChain h' ns := by
  induction ns with
  | nil => trivial
  | cons n ns ih =>
    obtain ⟨h0, h1, h2⟩ := hc
    refine ⟨h0, ?_, ih (fun p hp => hh p ?_) h2⟩
    · rw [hh n.1 (by simp [ptrs])]; exact h1
    · simp only [ptrs, List.map_cons, List.mem_cons]; exact Or.inr hp

theorem isChain_upd_of_not_mem {h : Heap} {ns : List Node} {p : Ptr} (v : Option list_ele_t)
    (hp : p ∉ ptrs ns) (hc : isChain h ns) : isChain (upd h p v) ns := by
  refine isChain_congr (fun x hx => upd_other h v ?_) hc
  rintro rfl
  exact hp hx

theorem zero_not_mem_ptrs {h : Heap} {ns : List Node} (hc : isChain h ns) : 0 ∉ ptrs ns := by
  induction ns with
  | nil => simp [ptrs]
  | cons n ns ih =>
    obtain ⟨h0, _, h2⟩ := hc
    simp only [ptrs, List.map_cons, List.mem_cons, not_or]
    exact ⟨fun e => h0 e.symm, ih h2⟩

theorem headPtr_ne_zero {h : Heap} {n : Node} {ns : List Node} (hc : isChain h (n :: ns)) :
    headPtr (n :: ns) ≠ 0 := hc.1

theorem deref_head {h : Heap} {n : Node} {ns : List Node} (hc : isChain h (n :: ns)) :
    deref h n.1 = some { value := n.2, next := headPtr ns } := by
  simp [deref, hc.1, hc.2.1]

theorem isChain_unique {h : Heap} {l1 l2 : List Node} (h1 : isChain h l1) (h2 : isChain h l2)
    (he : headPtr l1 = headPtr l2) : l1 = l2 := by
  induction l1 generalizing l2 with
  | nil =>
    cases l2 with
    | nil => rfl
    | cons m ms => exact absurd he.symm h2.1
  | cons n ns ih =>
    cases l2 with
    | nil => exact absurd he h1.1
    | cons m ms =>
      have e1 : n.1 = m.1 := he
      have e2 := h1.2.1
      rw [e1, h2.2.1] at e2
      simp only [Option.some.injEq, list_ele_t.mk.injEq] at e2
      have := ih h1.2.2 h2.2.2 e2.2.symm
      rw [this, Prod.ext e1 e2.1.symm]

theorem isChain_of_append {h : Heap} {l1 l2 : List Node} (hc : isChain h (l1 ++ l2)) :
    isChain h l2 := by
  induction l1 with
  | nil => exact hc
  | cons n ns ih => exact ih hc.2.2

theorem isChain_nodup {h : Heap} {ns : List Node} (hc : isChain h ns) : (ptrs ns).Nodup := by
  induction ns with
  | nil => simp [ptrs]
  | cons n ns ih =>
    simp only [ptrs, List.map_cons, List.nodup_cons]
    refine ⟨?_, ih hc.2.2⟩
    intro hmem
    obtain ⟨m, hm, hmn⟩ := List.mem_map.1 hmem
    obtain ⟨s, t, rfl⟩ := List.append_of_mem hm
    have hsuf : isChain h (m :: t) := isChain_of_append hc.2.2
    have := isChain_unique hc hsuf hmn.symm
    have hl := congrArg List.length this
    simp at hl
    omega

theorem lastPtr_cons_cons (n m : Node) (ns : List Node) :
    lastPtr (n :: m :: ns) = lastPtr (m :: ns) := rfl

theorem lastPtr_append_singleton (ns : List Node) (n : Node) : lastPtr (ns ++ [n]) = n.1 := by
  induction ns with
  | nil => rfl
  | cons a as ih =>
    cases as with
    | nil => rfl
    | cons b bs => simpa [lastPtr] using ih

theorem headPtr_append (l1 l2 : List Node) (h1 : l1 ≠ []) : headPtr (l1 ++ l2) = headPtr l1 := by
  cases l1 with
  | nil => exact absurd rfl h1
  | cons a as => rfl

theorem headPtr_reverse (ns : List Node) : headPtr ns.reverse = lastPtr ns := by
  induction ns with
  | nil => rfl
  | cons a as ih =>
    cases as with
    | nil => rfl
    | cons b bs =>
      rw [lastPtr_cons_cons, ← ih, List.reverse_cons, headPtr_append _ _ (by simp)]

theorem lastPtr_reverse (ns : List Node) : lastPtr ns.reverse = headPtr ns := by
  have := headPtr_reverse ns.reverse
  rw [List.reverse_reverse] at this
  exact this.symm


/-! ## `q_reverse` -/

/-- The loop of `q_reverse`, started with the chain `done` already reversed behind `head` and
the chain `rest` still ahead of `curr`, ends with `rest` reversed in front of `done` and
touches no node outside `rest`. -/
theorem q_reverse_loop_spec (fuel : Nat) (rest done : List Node) (h : Heap)
    (hr : isChain h rest) (hd : isChain h done) (hnd : (ptrs (rest ++ done)).Nodup)
    (hf : rest.length < fuel) :
    ∃ h1, q_reverse_loop fuel h (headPtr done) (headPtr rest)
        = some (h1, headPtr (rest.reverse ++ done)) ∧
      isChain h1 (rest.reverse ++ done) ∧ ∀ x, x ∉ ptrs rest → h1 x = h x := by
  induction rest generalizing fuel done h with
  | nil =>
    cases fuel with
    | zero => exact absurd hf (by simp)
    | succ fuel =>
      exact ⟨h, by simp [q_reverse_loop, headPtr], by simpa using hd, fun _ _ => rfl⟩
  | cons n ns ih =>
    cases fuel with
    | zero => exact absurd hf (by simp)
    | succ fuel =>
      have hn0 : n.1 ≠ 0 := hr.1
      have hnd1 : n.1 ∉ ptrs ns ∧ n.1 ∉ ptrs done ∧ (ptrs (ns ++ done)).Nodup := by
        simp only [ptrs, List.map_append, List.map_cons, List.cons_append, List.nodup_cons,
          List.mem_append, not_or] at hnd ⊢
        exact ⟨hnd.1.1, hnd.1.2, hnd.2⟩
      have hnd2 : (ptrs (ns ++ n :: done)).Nodup := by
        simp only [ptrs, List.map_append, List.map_cons] at hnd ⊢
        exact List.nodup_middle.2 (by simpa using hnd)
      have hr1 : isChain (upd h n.1 (some { value := n.2, next := headPtr done })) ns :=
        isChain_upd_of_not_mem _ hnd1.1 hr.2.2
      have hd1 : isChain (upd h n.1 (some { value := n.2, next := headPtr done })) (n :: done) :=
        ⟨hn0, upd_same _ _ _, isChain_upd_of_not_mem _ hnd1.2.1 hd⟩
      obtain ⟨h1, e1, c1, f1⟩ := ih fuel (n :: done) _ hr1 hd1 hnd2 (by simpa using hf)
      refine ⟨h1, ?_, ?_, ?_⟩
      · rw [q_reverse_loop, if_neg (show headPtr (n :: ns) ≠ 0 from hn0)]
        simp only [headPtr, deref_head hr]
        simpa [headPtr] using e1
      · simpa using c1
      · intro x hx
        simp only [ptrs, List.map_cons, List.mem_cons, not_or] at hx
        rw [f1 x hx.2, upd_other _ _ hx.1]

/-- Two heaps that hold the same chain and agree outside it are equal. -/
theorem heap_eq_of_isChain {h h' : Heap} {ns : List Node} (hc : isChain h ns)
    (hc' : isChain h' ns) (hf : ∀ x, x ∉ ptrs ns → h' x = h x) : h' = h := by
  funext x
  by_cases hx : x ∈ ptrs ns
  · clear hf
    induction ns with
    | nil => simp [ptrs] at hx
    | cons n ns ih =>
      simp only [ptrs, List.map_cons, List.mem_cons] at hx
      rcases hx with rfl | hx
      · rw [hc.2.1, hc'.2.1]
      · exact ih hc.2.2 hc'.2.2 hx
  · exact hf x hx

/-- `q_reverse` on a queue whose chain is `ns`: the chain becomes `ns.reverse`. -/
theorem q_reverse_spec (fuel : Nat) (h : Heap) (q : queue_t) (ns : List Node)
    (hc : isChain h ns) (hh : q.head = headPtr ns) (hf : ns.length < fuel) :
    ∃ h1, q_reverse fuel h (some q)
        = some (h1, some { head := lastPtr ns, tail := q.head, size := q.size }) ∧
      isChain h1 ns.reverse ∧ ∀ x, x ∉ ptrs ns → h1 x = h x := by
  obtain ⟨h1, e1, c1, f1⟩ :=
    q_reverse_loop_spec fuel ns [] h hc trivial (by simpa using isChain_nodup hc) hf
  refine ⟨h1, ?_, by simpa using c1, f1⟩
  rw [List.append_nil, headPtr_reverse] at e1
  have e2 : q_reverse_loop fuel h 0 (headPtr ns) = some (h1, lastPtr ns) := e1
  simp only [q_reverse, hh, e2]


/-! ## `q_insert_tail` and `q_remove_head` -/

theorem isSome_of_mem_ptrs {h : Heap} {ns : List Node} (hc : isChain h ns) {p : Ptr}
    (hp : p ∈ ptrs ns) : h p ≠ none := by
  induction ns with
  | nil => simp [ptrs] at hp
  | cons n ns ih =>
    simp only [ptrs, List.map_cons, List.mem_cons] at hp
    rcases hp with rfl | hp
    · rw [hc.2.1]; simp
    · exact ih hc.2.2 hp

theorem lastPtr_mem {ns : List Node} (hne : ns ≠ []) : lastPtr ns ∈ ptrs ns := by
  induction ns with
  | nil => exact absurd rfl hne
  | cons n ns ih =>
    cases ns with
    | nil => simp [lastPtr, ptrs]
    | cons m ms =>
      rw [lastPtr_cons_cons]
      simp only [ptrs, List.map_cons, List.mem_cons] at ih ⊢
      exact Or.inr (ih (by simp))

theorem lastPtr_ne_zero {h : Heap} {ns : List Node} (hc : isChain h ns) (hne : ns ≠ []) :
    lastPtr ns ≠ 0 := by
  intro e
  exact zero_not_mem_ptrs hc (e ▸ lastPtr_mem hne)

/-- The last node of a chain holds a `NULL` link. -/
theorem last_next_null {h : Heap} {ns : List Node} (hc : isChain h ns) (hne : ns ≠ []) :
    ∃ v, h (lastPtr ns) = some { value := v, next := 0 } := by
  induction ns with
  | nil => exact absurd rfl hne
  | cons n ns ih =>
    cases ns with
    | nil => exact ⟨n.2, hc.2.1⟩
    | cons m ms => exact ih hc.2.2 (by simp)

/-- Linking a fresh node behind the last node of a chain appends it to the chain. -/
theorem isChain_snoc {h h' : Heap} {ns : List Node} (new : Node) (hc : isChain h ns)
    (hne : ns ≠ []) (h0 : new.1 ≠ 0) (hnew : h' new.1 = some { value := new.2, next := 0 })
    (hlast : ∀ v, h (lastPtr ns) = some { value := v, next := 0 } →
      h' (lastPtr ns) = some { value := v, next := new.1 })
    (hrest : ∀ x ∈ ptrs ns, x ≠ lastPtr ns → h' x = h x) : isChain h' (ns ++ [new]) := by
  induction ns with
  | nil => exact absurd rfl hne
  | cons n ns ih =>
    cases ns with
    | nil => exact ⟨hc.1, hlast n.2 hc.2.1, h0, hnew, trivial⟩
    | cons m ms =>
      have hnd := isChain_nodup hc
      simp only [ptrs, List.map_cons, List.nodup_cons] at hnd
      have hlm : lastPtr (m :: ms) ∈ ptrs (m :: ms) := lastPtr_mem (by simp)
      have hne1 : n.1 ≠ lastPtr (n :: m :: ms) := by
        rw [lastPtr_cons_cons]
        intro e
        exact hnd.1 (by simpa [ptrs, e] using hlm)
      refine ⟨hc.1, ?_, ih hc.2.2 (by simp) hlast (fun x hx hxl => hrest x ?_ hxl)⟩
      · rw [hrest n.1 (by simp [ptrs]) hne1]; exact hc.2.1
      · simp only [ptrs, List.map_cons, List.mem_cons] at hx ⊢
        exact Or.inr hx

/-- A successful `q_insert_tail` on a queue that satisfies the invariants with chain `ns`:
it returns true, the chain becomes `ns` followed by the new node holding `s`, `tail` is the
new node, `size` grows by one and no other node's value changes. -/
theorem q_insert_tail_spec (h : Heap) (q : queue_t) (ns : List Node) (s : CStr) (newh : Ptr)
    (hinv : queueInv h q ns) (h0 : newh ≠ 0) (hfresh : h newh = none) :
    ∃ h1 q1, q_insert_tail h (some q) s newh = some (h1, some q1, true) ∧
      queueInv h1 q1 (ns ++ [(newh, s)]) ∧ q1.tail = newh ∧ q1.size = q.size + 1 ∧
      ∀ x, x ≠ newh → x ≠ q.tail → h1 x = h x := by
  obtain ⟨hc, hh, ht, hs⟩ := hinv
  have hnm : newh ∉ ptrs ns := fun hm => isSome_of_mem_ptrs hc hm hfresh
  cases ns with
  | nil =>
    have ht0 : q.tail = 0 := ht
    refine ⟨upd h newh (some { value := s, next := 0 }),
      { head := newh, tail := newh, size := q.size + 1 }, ?_, ?_, rfl, rfl, ?_⟩
    · simp [q_insert_tail, h0, ht0]
    · refine ⟨⟨h0, upd_same _ _ _, trivial⟩, rfl, rfl, ?_⟩
      simp [hs]
    · intro x hx _
      exact upd_other _ _ hx
  | cons n ms =>
    have hne : n :: ms ≠ [] := by simp
    have htn : q.tail ≠ 0 := ht ▸ lastPtr_ne_zero hc hne
    have htm : q.tail ∈ ptrs (n :: ms) := ht ▸ lastPtr_mem hne
    have htnew : q.tail ≠ newh := fun e => hnm (e ▸ htm)
    obtain ⟨v, hv⟩ := last_next_null hc hne
    rw [← ht] at hv
    refine ⟨upd (upd h newh (some { value := s, next := 0 })) q.tail
        (some { value := v, next := newh }),
      { head := q.head, tail := newh, size := q.size + 1 }, ?_, ?_, rfl, rfl, ?_⟩
    · simp [q_insert_tail, h0, htn, deref, upd_other _ _ htnew, hv]
    · refine ⟨isChain_snoc (newh, s) hc hne h0 ?_ ?_ ?_, ?_, ?_, ?_⟩
      · rw [upd_other _ _ (Ne.symm htnew), upd_same]
      · intro w hw
        rw [← ht] at hw ⊢
        rw [hv] at hw
        simp only [Option.some.injEq, list_ele_t.mk.injEq, and_true] at hw
        rw [upd_same, hw]
      · intro x hx hxl
        rw [← ht] at hxl
        rw [upd_other _ _ hxl, upd_other _ _ (fun (e : x = newh) => hnm (e ▸ hx))]
      · simp [hh, headPtr]
      · exact (lastPtr_append_singleton (n :: ms) (newh, s)).symm
      · simp [hs]
    · intro x hx hxt
      rw [upd_other _ _ hxt, upd_other _ _ hx]

/-- Copying `k` bytes of a string of at least `k` bytes and storing a NUL behind them. -/
theorem strncpy_storeByte (buf : List Nat) (v : CStr) (k : Nat) (hkb : k < buf.length)
    (hkv : k ≤ v.bytes.length) :
    (match strncpy buf v k with
      | none => none
      | some sp1 => storeByte sp1 k 0)
      = some (v.bytes.take k ++ [0] ++ buf.drop (k + 1)) := by
  have hrep : k - v.bytes.length = 0 := by omega
  have htl : (List.take k v.bytes).length = k := by rw [List.length_take]; omega
  simp only [strncpy, if_pos (Nat.le_of_lt hkb), hrep, List.replicate_zero, List.append_nil,
    storeByte, List.length_append, List.length_drop, htl]
  rw [if_pos (by omega)]
  refine congrArg some ?_
  rw [List.set_append_right _ _ (by omega), htl, Nat.sub_self, List.append_assoc]
  refine congrArg (fun l => List.take k v.bytes ++ l) ?_
  rw [List.drop_eq_getElem_cons hkb]
  rfl

theorem sizeSucc_eq {x : Nat} (hx : x < SIZE_MAX) : sizeSucc x = x + 1 := by
  unfold sizeSucc
  rw [if_neg (by omega)]

theorem sizePred_eq {x : Nat} (hx : 0 < x) : sizePred x = x - 1 := by
  unfold sizePred
  rw [if_neg (by omega)]

theorem toSizeT_natCast {n : Nat} (hn : n ≤ SIZE_MAX) : toSizeT (n : Int) = n := by
  have hmax : SIZE_MAX = 18446744073709551615 := rfl
  unfold toSizeT
  omega

/-- The count `length - 1` that `q_remove_head` passes to `strncpy`, for a capacity `c > 0`. -/
theorem copy_count (v : CStr) (c : Nat) (hc : 0 < c) (hv : strlen v < SIZE_MAX) :
    sizePred (if c < sizeSucc (strlen v) then c else sizeSucc (strlen v))
      = min (c - 1) (strlen v) := by
  rw [sizeSucc_eq hv]
  split
  · rw [sizePred_eq hc]; omega
  · rw [sizePred_eq (by omega)]; omega

/-- The copy of `q_remove_head` into a buffer of at least `c > 0` bytes: the first
`min (c - 1) (strlen v)` bytes of the value, one NUL, and the rest of the buffer as it was. -/
theorem copyOut_spec (buf : List Nat) (v : CStr) (c : Nat) (hc : 0 < c) (hb : c ≤ buf.length)
    (hv : strlen v < SIZE_MAX) :
    copyOut buf v c = some (v.bytes.take (min (c - 1) (strlen v)) ++ [0]
      ++ buf.drop (min (c - 1) (strlen v) + 1)) := by
  unfold copyOut
  simp only []
  rw [copy_count v c hc hv]
  exact strncpy_storeByte buf v _ (by omega) (by simp only [strlen]; omega)

/-- The queue record `q_remove_head` leaves behind when the rest of the chain is `ns`. -/
theorem q_remove_head_spec (h : Heap) (q : queue_t) (n : Node) (ns : List Node)
    (hc : isChain h (n :: ns)) (hh : q.head = n.1) :
    ∃ q1 : queue_t, q1.head = headPtr ns ∧ q1.tail = (if ns = [] then 0 else q.tail) ∧
      q1.size = q.size - 1 ∧
      q_remove_head h (some q) none 0 = some (upd h n.1 none, some q1, none, true) ∧
      (∀ buf c res, copyOut buf n.2 c = some res →
        q_remove_head h (some q) (some buf) c
          = some (upd h n.1 none, some q1, some res, true)) ∧
      isChain (upd h n.1 none) ns := by
  have hn0 : n.1 ≠ 0 := hc.1
  have hnd := isChain_nodup hc
  simp only [ptrs, List.map_cons, List.nodup_cons] at hnd
  have hnil : headPtr ns = 0 ↔ ns = [] := by
    cases ns with
    | nil => simp [headPtr]
    | cons m ms => simpa [headPtr] using hc.2.2.1
  refine ⟨{ head := headPtr ns, tail := (if ns = [] then 0 else q.tail), size := q.size - 1 },
    rfl, rfl, rfl, ?_, ?_, isChain_upd_of_not_mem _ hnd.1 hc.2.2⟩
  · simp only [q_remove_head, hh, if_neg hn0, deref_head hc]
    by_cases hz : ns = []
    · simp [hz, headPtr]
    · simp [hz, hnil]
  · intro buf c res ho
    simp only [q_remove_head, hh, if_neg hn0, deref_head hc, ho, Option.map_some']
    by_cases hz : ns = []
    · simp [hz, headPtr]
    · simp [hz, hnil]


/-! ## `q_split` -/

theorem headPtr_drop_succ (ns : List Node) (k : Nat) (hk : k < ns.length) :
    ∃ m : Node, ns.drop k = m :: ns.drop (k + 1) ∧ headPtr (ns.drop k) = m.1 := by
  refine ⟨ns[k], List.drop_eq_getElem_cons hk, ?_⟩
  rw [List.drop_eq_getElem_cons hk]
  rfl

/-- Walking `k` links along a chain of at least `k` nodes reaches the node after the first
`k`. -/
theorem walkSteps_spec (k : Nat) (h : Heap) (ns : List Node) (hc : isChain h ns)
    (hk : k ≤ ns.length) : walkSteps k h (headPtr ns) = some (headPtr (ns.drop k)) := by
  induction k generalizing ns with
  | zero => rfl
  | succ k ih =>
    cases ns with
    | nil => exact absurd hk (by simp)
    | cons n ns =>
      rw [walkSteps]
      simp only [headPtr, deref_head hc, List.drop_succ_cons]
      exact ih ns hc.2.2 (by simpa using hk)

/-- Clearing the link of the node `m` in the middle of a chain cuts the chain in two. -/
theorem isChain_cut {h : Heap} (l1 : List Node) (m : Node) (l2 : List Node)
    (hc : isChain h (l1 ++ m :: l2)) :
    isChain (upd h m.1 (some { value := m.2, next := 0 })) (l1 ++ [m]) ∧
      isChain (upd h m.1 (some { value := m.2, next := 0 })) l2 := by
  induction l1 with
  | nil =>
    have hnd := isChain_nodup hc
    simp only [List.nil_append, ptrs, List.map_cons, List.nodup_cons] at hnd
    exact ⟨⟨hc.1, upd_same _ _ _, trivial⟩, isChain_upd_of_not_mem _ hnd.1 hc.2.2⟩
  | cons a as ih =>
    have hnd := isChain_nodup hc
    simp only [List.cons_append, ptrs, List.map_cons, List.map_append, List.nodup_cons,
      List.mem_append, List.mem_cons, not_or] at hnd
    obtain ⟨i1, i2⟩ := ih hc.2.2
    refine ⟨⟨hc.1, ?_, i1⟩, i2⟩
    rw [upd_other _ _ hnd.1.2.1, hc.2.1]
    cases as <;> rfl

/-- `q_split` on a chain `ns` with `1 ≤ step ≤ ns.length`: the first `step` nodes and the
remaining nodes become two chains, and the remaining one is returned. -/
theorem q_split_spec (h : Heap) (ns : List Node) (step : Nat) (hc : isChain h ns)
    (h1 : 0 < step) (h2 : step ≤ ns.length) :
    ∃ h1, q_split h (headPtr ns) step = some (h1, headPtr (ns.drop step)) ∧
      isChain h1 (ns.take step) ∧ isChain h1 (ns.drop step) ∧
      ∀ x, x ∉ ptrs ns → h1 x = h x := by
  obtain ⟨m, hm, hmp⟩ := headPtr_drop_succ ns (step - 1) (by omega)
  rw [show step - 1 + 1 = step by omega] at hm
  have hsplit : ns = ns.take (step - 1) ++ m :: ns.drop step := by
    rw [← hm, List.take_append_drop]
  have htake : ns.take step = ns.take (step - 1) ++ [m] := by
    have : (ns.drop (step - 1)).take 1 = [m] := by rw [hm]; rfl
    rw [← this, ← List.take_add]
    congr 1; omega
  have hc' : isChain h (ns.take (step - 1) ++ m :: ns.drop step) := by rw [← hsplit]; exact hc
  obtain ⟨c1, c2⟩ := isChain_cut _ m _ hc'
  have hcm : isChain h (m :: ns.drop step) := isChain_of_append hc'
  refine ⟨upd h m.1 (some { value := m.2, next := 0 }), ?_, ?_, c2, ?_⟩
  · simp only [q_split, sizePred_eq h1, walkSteps_spec (step - 1) h ns hc (by omega), hmp,
      deref_head hcm]
  · rw [htake]; exact c1
  · intro x hx
    refine upd_other _ _ ?_
    rintro rfl
    apply hx
    rw [hsplit]
    simp [ptrs]


/-! ## `q_merge_sorted_list` -/

theorem mergeL_nil_right (l : List Node) : mergeL l [] = l := by
  cases l <;> simp [mergeL]

theorem mergeL_ne_nil_right (l1 : List Node) {l2 : List Node} (h2 : l2 ≠ []) :
    mergeL l1 l2 ≠ [] := by
  cases l1 with
  | nil => simpa [mergeL] using h2
  | cons a as =>
    cases l2 with
    | nil => exact absurd rfl h2
    | cons b bs =>
      rw [mergeL]
      split <;> simp

theorem store_spec (h : Heap) (root : Ptr) (l : List Node) (loc : Loc) (v : Ptr)
    (hl : locOk h l loc) :
    ∃ h1 root1, store h root loc v = some (h1, root1) ∧ storedAt h root l loc v h1 root1 ∧
      load h1 root1 loc = some v ∧ (∀ x, x ∈ ptrs l → h1 x = h x) := by
  cases loc with
  | root => exact ⟨h, v, rfl, ⟨rfl, fun _ _ => rfl⟩, rfl, fun _ _ => rfl⟩
  | next p =>
    obtain ⟨hp0, hps, hpl⟩ := hl
    obtain ⟨e, he⟩ := Option.ne_none_iff_exists'.1 hps
    refine ⟨upd h p (some { value := e.value, next := v }), root, ?_, ⟨rfl, ⟨e, he, upd_same _ _ _⟩,
      fun x _ hx => upd_other _ _ hx⟩, ?_, fun x hx => upd_other _ _ ?_⟩
    · simp [store, deref, hp0, he]
    · simp [load, deref, hp0, upd_same]
    · rintro rfl; exact hpl hx


theorem storedAt_step {h h1 h2 : Heap} {root root1 root2 : Ptr} {L L' : List Node} {loc : Loc}
    {c v : Ptr} (hl : locOk h L loc) (hs : storedAt h root L loc c h1 root1)
    (hc : c ∈ ptrs L) (hs' : storedAt h1 root1 L' (Loc.next c) v h2 root2)
    (hsub : ∀ x, x ∈ ptrs L' → x ∈ ptrs L) : storedAt h root L loc c h2 root2 := by
  obtain ⟨r2, -, f2⟩ := hs'
  have hfr : ∀ x, x ∉ ptrs L → h2 x = h1 x := fun x hx =>
    f2 x (fun hx' => hx (hsub x hx')) (fun e => hx (e ▸ hc))
  cases loc with
  | root =>
    obtain ⟨r1, f1⟩ := hs
    exact ⟨r2.trans r1, fun x hx => (hfr x hx).trans (f1 x hx)⟩
  | next p =>
    obtain ⟨r1, ⟨e, he, he1⟩, f1⟩ := hs
    exact ⟨r2.trans r1, ⟨e, he, (hfr p hl.2.2).trans he1⟩,
      fun x hx hxp => (hfr x hx).trans (f1 x hx hxp)⟩

/-- The first loop of `q_merge_sorted_list` followed by the assignment of the rest, lines
171-184, on two chains without a common node: the place `head` pointed to on entry then
starts the chain of the merged nodes, and `head` points to a link inside that chain. -/
theorem mergeLoop_spec (fuel : Nat) (l1 l2 : List Node) (h : Heap) (root : Ptr) (loc : Loc)
    (c1 : isChain h l1) (c2 : isChain h l2) (hnd : (ptrs (l1 ++ l2)).Nodup)
    (hl : locOk h (l1 ++ l2) loc) (hf : l1.length + l2.length < fuel) :
    ∃ h1 root1 loc1 f1 s1,
      mergeLoop fuel h root loc (headPtr l1) (headPtr l2) = some (h1, root1, loc1, f1, s1) ∧
      ∃ h2 root2, store h1 root1 loc1 (if f1 ≠ 0 then f1 else s1) = some (h2, root2) ∧
        isChain h2 (mergeL l1 l2) ∧
        storedAt h root (l1 ++ l2) loc (headPtr (mergeL l1 l2)) h2 root2 ∧
        ∃ sfx, sfx <:+ mergeL l1 l2 ∧ (mergeL l1 l2 ≠ [] → sfx ≠ []) ∧
          load h2 root2 loc1 = some (headPtr sfx) := by
  induction fuel generalizing l1 l2 h root loc with
  | zero => exact absurd hf (by simp)
  | succ fuel ih =>
    cases l1 with
    | nil =>
      obtain ⟨h2, root2, e, st, ld, fr⟩ := store_spec h root ([] ++ l2) loc (headPtr l2) hl
      refine ⟨h, root, loc, 0, headPtr l2, by simp [mergeLoop, headPtr], h2, root2,
        by simpa using e, ?_, by simpa [mergeL] using st, l2, by simp [mergeL],
        by simp [mergeL], ld⟩
      simpa [mergeL] using isChain_congr fr c2
    | cons a as =>
      cases l2 with
      | nil =>
        rw [List.append_nil] at hl ⊢
        obtain ⟨h2, root2, e, st, ld, fr⟩ := store_spec h root (a :: as) loc a.1 hl
        have ha0 : a.1 ≠ 0 := c1.1
        refine ⟨h, root, loc, a.1, 0, by simp [mergeLoop, headPtr], h2, root2,
          by simpa [ha0] using e, ?_, by simpa [mergeL, headPtr] using st, a :: as,
          by simp [mergeL], by simp [mergeL], ld⟩
        simpa [mergeL] using isChain_congr fr c1
      | cons b bs =>
        have ha0 : a.1 ≠ 0 := c1.1
        have hb0 : b.1 ≠ 0 := c2.1
        have hmemA : a.1 ∈ ptrs (a :: as ++ b :: bs) := by simp [ptrs]
        have hmemB : b.1 ∈ ptrs (a :: as ++ b :: bs) := by simp [ptrs]
        rw [mergeLoop, if_pos ⟨ha0, hb0⟩]
        simp only [headPtr, deref_head c1, deref_head c2]
        rw [mergeL]
        by_cases hlt : strcasecmp a.2 b.2 < 0
        · simp only [if_pos hlt]
          obtain ⟨h1, root1, e, st, -, fr⟩ :=
            store_spec h root (a :: as ++ b :: bs) loc a.1 hl
          have c1' : isChain h1 (a :: as) := isChain_congr (fun p hp => fr p (by
            simp only [ptrs, List.map_append, List.mem_append] at hp ⊢; exact Or.inl hp)) c1
          have c2' : isChain h1 (b :: bs) := isChain_congr (fun p hp => fr p (by
            simp only [ptrs, List.map_append, List.mem_append] at hp ⊢; exact Or.inr hp)) c2
          have hnd' : (ptrs (as ++ b :: bs)).Nodup ∧ a.1 ∉ ptrs (as ++ b :: bs) := by
            simp only [ptrs, List.cons_append, List.map_cons, List.nodup_cons] at hnd ⊢
            exact ⟨hnd.2, hnd.1⟩
          have hl' : locOk h1 (as ++ b :: bs) (Loc.next a.1) :=
            ⟨ha0, by rw [c1'.2.1]; simp, hnd'.2⟩
          obtain ⟨h3, root3, loc3, f3, s3, e3, h4, root4, e4, c4, st4, sfx, hs1, hs2, hs3⟩ :=
            ih as (b :: bs) h1 root1 (Loc.next a.1) c1'.2.2 c2' hnd'.1 hl'
              (by simp only [List.length_cons] at hf ⊢; omega)
          simp only [e, deref_head c1']
          refine ⟨h3, root3, loc3, f3, s3, e3, h4, root4, e4, ?_, ?_, sfx,
            hs1.trans (List.suffix_cons _ _), fun _ => hs2 (mergeL_ne_nil_right _ (by simp)),
            hs3⟩
          · obtain ⟨-, ⟨e', he', he4⟩, -⟩ := st4
            rw [c1'.2.1] at he'
            refine ⟨ha0, ?_, c4⟩
            rw [he4, ← Option.some.inj he']
          · refine storedAt_step hl st hmemA st4 (fun x hx => ?_)
            simp only [ptrs, List.cons_append, List.map_cons, List.mem_cons] at hx ⊢
            exact Or.inr hx
        · simp only [if_neg hlt]
          obtain ⟨h1, root1, e, st, -, fr⟩ :=
            store_spec h root (a :: as ++ b :: bs) loc b.1 hl
          have c1' : isChain h1 (a :: as) := isChain_congr (fun p hp => fr p (by
            simp only [ptrs, List.map_append, List.mem_append] at hp ⊢; exact Or.inl hp)) c1
          have c2' : isChain h1 (b :: bs) := isChain_congr (fun p hp => fr p (by
            simp only [ptrs, List.map_append, List.mem_append] at hp ⊢; exact Or.inr hp)) c2
          have hnd' : (ptrs (a :: as ++ bs)).Nodup ∧ b.1 ∉ ptrs (a :: as ++ bs) := by
            simp only [ptrs, List.map_append, List.map_cons] at hnd ⊢
            have := List.nodup_middle.1 hnd
            rw [List.nodup_cons] at this
            exact ⟨this.2, this.1⟩
          have hl' : locOk h1 (a :: as ++ bs) (Loc.next b.1) :=
            ⟨hb0, by rw [c2'.2.1]; simp, hnd'.2⟩
          obtain ⟨h3, root3, loc3, f3, s3, e3, h4, root4, e4, c4, st4, sfx, hs1, hs2, hs3⟩ :=
            ih (a :: as) bs h1 root1 (Loc.next b.1) c1' c2'.2.2 hnd'.1 hl'
              (by simp only [List.length_cons] at hf ⊢; omega)
          simp only [e, deref_head c2']
          refine ⟨h3, root3, loc3, f3, s3, e3, h4, root4, e4, ?_, ?_, sfx,
            hs1.trans (List.suffix_cons _ _), fun _ => hs2 (by
              cases bs with
              | nil => simp [mergeL]
              | cons _ _ => exact mergeL_ne_nil_right _ (by simp)),
            hs3⟩
          · obtain ⟨-, ⟨e', he', he4⟩, -⟩ := st4
            rw [c2'.2.1] at he'
            refine ⟨hb0, ?_, c4⟩
            rw [he4, ← Option.some.inj he']
          · refine storedAt_step hl st hmemB st4 (fun x hx => ?_)
            simp only [ptrs, List.map_append, List.map_cons, List.mem_append,
              List.mem_cons] at hx ⊢
            rcases hx with (hx | hx) | hx
            · exact Or.inl (Or.inl hx)
            · exact Or.inl (Or.inr hx)
            · exact Or.inr (Or.inr hx)


theorem mergeL_perm (l1 l2 : List Node) : (mergeL l1 l2).Perm (l1 ++ l2) := by
  induction l1 generalizing l2 with
  | nil => simp [mergeL]
  | cons a as ih1 =>
    induction l2 with
    | nil => simp [mergeL]
    | cons b bs ih2 =>
      rw [mergeL]
      split
      · exact (ih1 (b :: bs)).cons a
      · exact (ih2.cons b).trans (List.perm_middle.symm)

theorem lastPtr_suffix {sfx l : List Node} (hs : sfx <:+ l) (hne : sfx ≠ []) :
    lastPtr sfx = lastPtr l := by
  obtain ⟨t, rfl⟩ := hs
  induction t with
  | nil => rfl
  | cons a as ih =>
    cases hq : as ++ sfx with
    | nil => simp_all
    | cons b bs =>
      rw [List.cons_append, hq, lastPtr_cons_cons, ← hq]
      exact ih

/-- The second loop of `q_merge_sorted_list`, lines 186-188, started with `head` pointing to
a link that starts the non-empty chain `sfx`: it returns the last node of `sfx`. -/
theorem lastLoop_spec (fuel : Nat) (h : Heap) (root : Ptr) (loc : Loc) (sfx : List Node)
    (hc : isChain h sfx) (hne : sfx ≠ []) (hld : load h root loc = some (headPtr sfx))
    (hf : sfx.length ≤ fuel) : lastLoop fuel h root loc = some (lastPtr sfx) := by
  induction sfx generalizing fuel loc with
  | nil => exact absurd rfl hne
  | cons n rest ih =>
    cases fuel with
    | zero => exact absurd hf (by simp)
    | succ fuel =>
      rw [lastLoop, hld]
      simp only [headPtr, deref_head hc]
      cases rest with
      | nil => simp [headPtr, lastPtr]
      | cons m ms =>
        have hm0 : m.1 ≠ 0 := hc.2.2.1
        simp only [headPtr, ne_eq, hm0, not_false_eq_true, if_true, lastPtr_cons_cons]
        refine ih fuel (Loc.next n.1) hc.2.2 (by simp) ?_ (by simpa using hf)
        simp [load, deref_head hc, headPtr]

/-- `q_merge_sorted_list` on two chains without a common node, not both empty: the variable
`head` points to receives the first node of the merged chain, the last node of the merged
chain is returned, and no node outside the two chains changes. -/
theorem q_merge_sorted_list_spec (fuel : Nat) (l1 l2 : List Node) (h : Heap) (root : Ptr)
    (c1 : isChain h l1) (c2 : isChain h l2) (hnd : (ptrs (l1 ++ l2)).Nodup)
    (hne : l1 ++ l2 ≠ []) (hf : l1.length + l2.length < fuel) :
    ∃ h2, q_merge_sorted_list fuel h root (headPtr l1) (headPtr l2)
        = some (h2, headPtr (mergeL l1 l2), lastPtr (mergeL l1 l2)) ∧
      isChain h2 (mergeL l1 l2) ∧ ∀ x, x ∉ ptrs (l1 ++ l2) → h2 x = h x := by
  obtain ⟨h1, root1, loc1, f1, s1, e1, h2, root2, e2, cm, st, sfx, hs1, hs2, hs3⟩ :=
    mergeLoop_spec fuel l1 l2 h root Loc.root c1 c2 hnd trivial hf
  have hmne : mergeL l1 l2 ≠ [] := by
    intro e
    have := (mergeL_perm l1 l2).length_eq
    rw [e] at this
    exact hne (List.eq_nil_of_length_eq_zero this.symm)
  have hlen : sfx.length ≤ fuel := by
    have h1 := hs1.length_le
    have h2 := (mergeL_perm l1 l2).length_eq
    rw [List.length_append] at h2
    omega
  obtain ⟨r2, fr⟩ := st
  have hcs : isChain h2 sfx := by
    obtain ⟨t, ht⟩ := hs1
    have hts : isChain h2 (t ++ sfx) := ht ▸ cm
    exact isChain_of_append hts
  have hlast := lastLoop_spec fuel h2 root2 loc1 sfx hcs (hs2 hmne) hs3 hlen
  rw [lastPtr_suffix hs1 (hs2 hmne), r2] at hlast
  refine ⟨h2, ?_, cm, fr⟩
  simp only [q_merge_sorted_list, e1, e2, r2, hlast]


/-! ## `merge_sort` and `q_sort` -/

theorem msortL_of_lt (ns : List Node) (h : ns.length < 2) : msortL ns = ns := by
  rw [msortL, dif_pos h]

theorem msortL_of_ge (ns : List Node) (h : ¬ ns.length < 2) :
    msortL ns = mergeL (msortL (ns.take (ns.length - ns.length / 2)))
      (msortL (ns.drop (ns.length - ns.length / 2))) := by
  rw [msortL, dif_neg h]

theorem msortL_perm (ns : List Node) : (msortL ns).Perm ns := by
  suffices H : ∀ n (ns : List Node), ns.length = n → (msortL ns).Perm ns from H _ ns rfl
  intro n
  induction n using Nat.strong_induction_on with
  | _ n ih =>
    intro ns hn
    subst hn
    by_cases hlt : ns.length < 2
    · rw [msortL_of_lt ns hlt]
    · rw [msortL_of_ge ns hlt]
      have p1 := ih (ns.take (ns.length - ns.length / 2)).length
        (by rw [List.length_take]; omega) _ rfl
      have p2 := ih (ns.drop (ns.length - ns.length / 2)).length
        (by rw [List.length_drop]; omega) _ rfl
      refine (mergeL_perm _ _).trans ((p1.append p2).trans ?_)
      rw [List.take_append_drop]

theorem ptrs_perm {l1 l2 : List Node} (hp : l1.Perm l2) : (ptrs l1).Perm (ptrs l2) :=
  hp.map _

theorem lastPtr_of_length_lt (ns : List Node) (h : ns.length < 2) : lastPtr ns = headPtr ns := by
  match ns, h with
  | [], _ => rfl
  | [_], _ => rfl

/-- `merge_sort` on a chain `ns`, called with its length: the variable `head` points to
receives the first node of the sorted chain, the last node of the sorted chain is returned,
and no node outside the chain changes. -/
theorem merge_sort_spec (fuel : Nat) (ns : List Node) (h : Heap) (hc : isChain h ns)
    (hf : ns.length + 1 < fuel) :
    ∃ h', merge_sort fuel h (headPtr ns) ns.length
        = some (h', headPtr (msortL ns), lastPtr (msortL ns)) ∧
      isChain h' (msortL ns) ∧ ∀ x, x ∉ ptrs ns → h' x = h x := by
  induction fuel generalizing ns h with
  | zero => exact absurd hf (by simp)
  | succ fuel ih =>
    rw [merge_sort]
    by_cases hlt : ns.length < 2
    · rw [if_pos hlt, msortL_of_lt ns hlt, lastPtr_of_length_lt ns hlt]
      exact ⟨h, rfl, hc, fun _ _ => rfl⟩
    · rw [if_neg hlt, msortL_of_ge ns hlt]
      simp only []
      have hll1 : 0 < ns.length - ns.length / 2 := by omega
      have hll2 : ns.length - ns.length / 2 ≤ ns.length := by omega
      have hnd : (ptrs (ns.take (ns.length - ns.length / 2)
          ++ ns.drop (ns.length - ns.length / 2))).Nodup := by
        rw [List.take_append_drop]; exact isChain_nodup hc
      have hdisj := List.disjoint_of_nodup_append (by
        simpa only [ptrs, List.map_append] using hnd)
      generalize hA : ns.take (ns.length - ns.length / 2) = A at *
      generalize hB : ns.drop (ns.length - ns.length / 2) = B at *
      have hlenA : A.length = ns.length - ns.length / 2 := by
        rw [← hA, List.length_take]; omega
      have hlenB : B.length = ns.length / 2 := by
        rw [← hB, List.length_drop]; omega
      have hhead : headPtr ns = headPtr A := by
        rw [← hA]
        cases ns with
        | nil => simp at hlt
        | cons a as =>
          obtain ⟨k, hk⟩ : ∃ k, (a :: as).length - (a :: as).length / 2 = k + 1 :=
            ⟨(a :: as).length - (a :: as).length / 2 - 1, by omega⟩
          rw [hk]; rfl
      obtain ⟨h1, e1, cA, cB, f1⟩ := q_split_spec h ns _ hc hll1 hll2
      rw [hA] at cA
      rw [hB] at cB e1
      obtain ⟨h2, e2, cA2, f2⟩ := ih A h1 cA (by omega)
      have cB2 : isChain h2 B :=
        isChain_congr (fun p hp => f2 p (fun hp' => hdisj hp' hp)) cB
      obtain ⟨h3, e3, cB3, f3⟩ := ih B h2 cB2 (by omega)
      have pA := ptrs_perm (msortL_perm A)
      have pB := ptrs_perm (msortL_perm B)
      have cA3 : isChain h3 (msortL A) :=
        isChain_congr (fun p hp => f3 p (fun hp' => hdisj (pA.subset hp) hp')) cA2
      have hnd3 : (ptrs (msortL A ++ msortL B)).Nodup := by
        have : (ptrs (msortL A ++ msortL B)).Perm (ptrs (A ++ B)) :=
          ptrs_perm ((msortL_perm A).append (msortL_perm B))
        exact this.nodup_iff.2 hnd
      have hne3 : msortL A ++ msortL B ≠ [] := by
        intro e
        have := congrArg List.length e
        rw [List.length_append, (msortL_perm A).length_eq, (msortL_perm B).length_eq] at this
        simp only [List.length_nil] at this
        omega
      obtain ⟨h4, e4, c4, f4⟩ := q_merge_sorted_list_spec fuel (msortL A) (msortL B) h3
        (headPtr (msortL A)) cA3 cB3 hnd3 hne3 (by
          rw [(msortL_perm A).length_eq, (msortL_perm B).length_eq]; omega)
      refine ⟨h4, ?_, c4, fun x hx => ?_⟩
      · rw [hlenA] at e2
        rw [hlenB] at e3
        rw [hhead] at e1
        simp only [hhead, e1, e2, e3, e4]
      · have hxAB : x ∉ ptrs A ∧ x ∉ ptrs B := by
          have : ns = A ++ B := by rw [← hA, ← hB, List.take_append_drop]
          rw [this] at hx
          simpa [ptrs, not_or] using hx
        have hx4 : x ∉ ptrs (msortL A ++ msortL B) := by
          simp only [ptrs, List.map_append, List.mem_append, not_or]
          exact ⟨fun hm => hxAB.1 (pA.subset hm), fun hm => hxAB.2 (pB.subset hm)⟩
        rw [f4 x hx4, f3 x hxAB.2, f2 x hxAB.1, f1 x hx]


theorem mem_mergeL {x : Node} {l1 l2 : List Node} (hx : x ∈ mergeL l1 l2) : x ∈ l1 ∨ x ∈ l2 :=
  List.mem_append.1 ((mergeL_perm l1 l2).subset hx)

/-- Merging two lists that ascend by key gives a list that ascends by key. -/
theorem mergeL_sorted (l1 l2 : List Node) (h1 : l1.Pairwise (fun a b => key a.2 ≤ key b.2))
    (h2 : l2.Pairwise (fun a b => key a.2 ≤ key b.2)) :
    (mergeL l1 l2).Pairwise (fun a b => key a.2 ≤ key b.2) := by
  induction l1 generalizing l2 with
  | nil => simpa [mergeL] using h2
  | cons a as ih1 =>
    induction l2 with
    | nil => simpa [mergeL] using h1
    | cons b bs ih2 =>
      rw [mergeL]
      rw [List.pairwise_cons] at h1 h2
      split
      · rename_i hlt
        rw [strcasecmp_neg_iff] at hlt
        refine List.pairwise_cons.2 ⟨fun x hx => ?_, ih1 (b :: bs) h1.2 (List.pairwise_cons.2 h2)⟩
        rcases mem_mergeL hx with hx | hx
        · exact h1.1 x hx
        · rcases List.mem_cons.1 hx with rfl | hx
          · exact le_of_lt hlt
          · exact le_trans (le_of_lt hlt) (h2.1 x hx)
      · rename_i hlt
        rw [strcasecmp_neg_iff, not_lt] at hlt
        refine List.pairwise_cons.2 ⟨fun x hx => ?_, ih2 h2.2⟩
        rcases mem_mergeL hx with hx | hx
        · rcases List.mem_cons.1 hx with rfl | hx
          · exact hlt
          · exact le_trans hlt (h1.1 x hx)
        · exact h2.1 x hx

/-- The sorted list ascends by key. -/
theorem msortL_sorted (ns : List Node) :
    (msortL ns).Pairwise (fun a b => key a.2 ≤ key b.2) := by
  suffices H : ∀ n (ns : List Node), ns.length = n →
      (msortL ns).Pairwise (fun a b => key a.2 ≤ key b.2) from H _ ns rfl
  intro n
  induction n using Nat.strong_induction_on with
  | _ n ih =>
    intro ns hn
    subst hn
    by_cases hlt : ns.length < 2
    · rw [msortL_of_lt ns hlt]
      match ns, hlt with
      | [], _ => exact List.Pairwise.nil
      | [_], _ => exact List.pairwise_singleton _ _
    · rw [msortL_of_ge ns hlt]
      exact mergeL_sorted _ _
        (ih _ (by rw [List.length_take]; omega) _ rfl)
        (ih _ (by rw [List.length_drop]; omega) _ rfl)

/-- `q_sort` on a queue whose chain is `ns` and whose `size` is the length of `ns`. -/
theorem q_sort_spec (fuel : Nat) (h : Heap) (q : queue_t) (ns : List Node)
    (hc : isChain h ns) (hh : q.head = headPtr ns) (hs : q.size = (ns.length : Int))
    (hmax : ns.length ≤ SIZE_MAX) (hf : ns.length + 1 < fuel) :
    ∃ h', q_sort fuel h (some q)
        = some (h', some (queue_t.mk (headPtr (msortL ns)) (lastPtr (msortL ns)) q.size)) ∧
      isChain h' (msortL ns) ∧ ∀ x, x ∉ ptrs ns → h' x = h x := by
  obtain ⟨h', e, c, f⟩ := merge_sort_spec fuel ns h hc hf
  refine ⟨h', ?_, c, f⟩
  simp only [q_sort, hh, hs, toSizeT_natCast hmax, e]


/-! ## Ties: elements with equal keys come out in reverse order -/

/-- In a merge the nodes of one key come out with those of the second list first. -/
theorem mergeL_filter (k : List Nat) (l1 l2 : List Node)
    (h2 : l2.Pairwise (fun a b => key a.2 ≤ key b.2)) :
    (mergeL l1 l2).filter (fun x => decide (key x.2 = k))
      = l2.filter (fun x => decide (key x.2 = k))
        ++ l1.filter (fun x => decide (key x.2 = k)) := by
  induction l1 generalizing l2 with
  | nil => simp [mergeL]
  | cons a as ih1 =>
    induction l2 with
    | nil => simp [mergeL]
    | cons b bs ih2 =>
      rw [mergeL]
      rw [List.pairwise_cons] at h2
      split
      · rename_i hlt
        rw [strcasecmp_neg_iff] at hlt
        rw [List.filter_cons, ih1 (b :: bs) (List.pairwise_cons.2 h2)]
        by_cases hk : key a.2 = k
        · have hnil : (b :: bs).filter (fun x => decide (key x.2 = k)) = [] := by
            rw [List.filter_eq_nil_iff]
            intro x hx
            have hle : key b.2 ≤ key x.2 := by
              rcases List.mem_cons.1 hx with rfl | hx
              · exact le_refl _
              · exact h2.1 x hx
            have : key a.2 < key x.2 := lt_of_lt_of_le hlt hle
            simp only [decide_eq_true_eq]
            intro e
            rw [hk, e] at this
            exact lt_irrefl _ this
          simp [hk, hnil, List.filter_cons]
        · simp [hk, List.filter_cons]
      · rw [List.filter_cons, ih2 h2.2]
        by_cases hk : key b.2 = k
        · simp [hk, List.filter_cons]
        · simp [hk, List.filter_cons]

/-- In the sorted list the nodes of one key are in the reverse of their original order. -/
theorem msortL_filter (k : List Nat) (ns : List Node) :
    (msortL ns).filter (fun x => decide (key x.2 = k))
      = (ns.filter (fun x => decide (key x.2 = k))).reverse := by
  suffices H : ∀ n (ns : List Node), ns.length = n →
      (msortL ns).filter (fun x => decide (key x.2 = k))
        = (ns.filter (fun x => decide (key x.2 = k))).reverse from H _ ns rfl
  intro n
  induction n using Nat.strong_induction_on with
  | _ n ih =>
    intro ns hn
    subst hn
    by_cases hlt : ns.length < 2
    · rw [msortL_of_lt ns hlt]
      match ns, hlt with
      | [], _ => rfl
      | [a], _ =>
        by_cases hk : key a.2 = k <;> simp [List.filter_cons, hk]
    · rw [msortL_of_ge ns hlt, mergeL_filter k _ _ (msortL_sorted _),
        ih _ (by rw [List.length_drop]; omega) _ rfl,
        ih _ (by rw [List.length_take]; omega) _ rfl, ← List.reverse_append,
        ← List.filter_append, List.take_append_drop]

/-- Two nodes of equal key swap their relative order in the sorted list. -/
theorem msortL_swaps_ties (ns : List Node) (a b : Node) (hab : [a, b].Sublist ns)
    (hk : key a.2 = key b.2) : [b, a].Sublist (msortL ns) := by
  have h1 : ([a, b].filter (fun x => decide (key x.2 = key b.2))).Sublist
      (ns.filter (fun x => decide (key x.2 = key b.2))) := hab.filter _
  have h2 : [a, b].filter (fun x => decide (key x.2 = key b.2)) = [a, b] := by
    simp [List.filter_cons, hk]
  rw [h2] at h1
  have h3 := h1.reverse
  rw [← msortL_filter] at h3
  exact h3.trans (List.filter_sublist _)

/-- A list of values that ascends by key and in which equal keys mean equal values is
determined by its elements. -/
theorem values_eq_of_sorted_perm (l1 l2 : List Node) (hp : l1.Perm l2)
    (hT : ∀ s ∈ values l1, ∀ t ∈ values l1, key s = key t → s = t)
    (h1 : (values l1).Pairwise (fun s t => key s ≤ key t))
    (h2 : (values l2).Pairwise (fun s t => key s ≤ key t)) : values l1 = values l2 := by
  have hpv : (values l1).Perm (values l2) := hp.map _
  refine List.Perm.eq_of_sorted (fun s t hs ht hst hts => ?_) h1 h2 hpv
  exact hT s hs t (hpv.symm.subset ht) (le_antisymm hst hts)

theorem values_sorted_of_sorted {l : List Node}
    (h : l.Pairwise (fun a b => key a.2 ≤ key b.2)) :
    (values l).Pairwise (fun s t => key s ≤ key t) := by
  unfold values
  rw [List.pairwise_map]
  exact h


/-! ## Sequences of `q_insert_tail` and `q_remove_head` calls -/

/-- The calls of `insertTails` with fresh addresses append the new nodes to the chain. -/
theorem insertTails_spec (ns : List Node) (h : Heap) (q : queue_t) (xs : List Node)
    (hinv : queueInv h q xs) (hfresh : ∀ n ∈ ns, n.1 ≠ 0 ∧ h n.1 = none)
    (hnd : (ptrs ns).Nodup) :
    ∃ h1 q1, insertTails h (some q) ns = some (h1, some q1) ∧ queueInv h1 q1 (xs ++ ns) := by
  induction ns generalizing h q xs with
  | nil => exact ⟨h, q, rfl, by simpa using hinv⟩
  | cons n rest ih =>
    obtain ⟨hn0, hnf⟩ := hfresh n (List.mem_cons_self _ _)
    obtain ⟨h1, q1, e1, inv1, -, -, fr⟩ := q_insert_tail_spec h q xs n.2 n.1 hinv hn0 hnf
    simp only [ptrs, List.map_cons, List.nodup_cons] at hnd
    have hfresh1 : ∀ m ∈ rest, m.1 ≠ 0 ∧ h1 m.1 = none := by
      intro m hm
      obtain ⟨hm0, hmf⟩ := hfresh m (List.mem_cons_of_mem _ hm)
      refine ⟨hm0, ?_⟩
      rw [fr m.1 ?_ ?_]
      · exact hmf
      · intro e
        exact hnd.1 (e ▸ List.mem_map_of_mem Prod.fst hm)
      · intro e
        rw [hinv.2.2.1] at e
        cases xs with
        | nil => exact hm0 e
        | cons x xs' =>
          exact isSome_of_mem_ptrs hinv.1 (lastPtr_mem (by simp)) (e ▸ hmf)
    obtain ⟨h2, q2, e2, inv2⟩ := ih h1 q1 (xs ++ [n]) inv1 hfresh1 hnd.2
    refine ⟨h2, q2, ?_, by simpa using inv2⟩
    simp only [insertTails, e1, e2]

/-- What a buffer holding `buf` contains after `q_remove_head` copied the value `s` into it
with capacity `c`. -/
theorem bufStr_copy (s : CStr) (k : Nat) (rest : List Nat) :
    bufStr (s.bytes.take k ++ [0] ++ rest) = s.bytes.take k := by
  unfold bufStr
  rw [List.append_assoc, List.takeWhile_append_of_pos, List.singleton_append,
    List.takeWhile_cons_of_neg (by simp), List.append_nil]
  intro b hb
  simpa using s.noNUL b (List.mem_of_mem_take hb)

/-- The calls of `removeHeads` on a chain `ns` deliver the values of `ns` in order, each
cut to the capacity, and empty the queue. -/
theorem removeHeads_spec (buf : List Nat) (c : Nat) (ns : List Node) (h : Heap) (q : queue_t)
    (hc : isChain h ns) (hh : q.head = headPtr ns) (hc0 : 0 < c) (hb : c ≤ buf.length)
    (hv : ∀ n ∈ ns, strlen n.2 < SIZE_MAX) :
    ∃ h2 q2 outs, removeHeads buf c ns.length h (some q) = some (h2, some q2, outs) ∧
      outs.map bufStr = (values ns).map (fun s => s.bytes.take (c - 1)) ∧
      q2.head = 0 ∧ q2.size = q.size - (ns.length : Int) := by
  induction ns generalizing h q with
  | nil => exact ⟨h, q, [], rfl, rfl, hh, by simp⟩
  | cons n rest ih =>
    obtain ⟨q1, hq1, -, hs1, -, e1, c1⟩ := q_remove_head_spec h q n rest hc hh
    have hcopy := copyOut_spec buf n.2 c hc0 hb (hv n (List.mem_cons_self _ _))
    obtain ⟨h2, q2, outs, e2, ho, hq2, hs2⟩ := ih (upd h n.1 none) q1 c1 hq1
      (fun m hm => hv m (List.mem_cons_of_mem _ hm))
    refine ⟨h2, q2, (n.2.bytes.take (min (c - 1) (strlen n.2)) ++ [0]
      ++ buf.drop (min (c - 1) (strlen n.2) + 1)) :: outs, ?_, ?_, hq2, ?_⟩
    · simp only [List.length_cons, removeHeads, e1 buf c _ hcopy, e2]
    · simp only [List.map_cons, values, bufStr_copy, List.cons.injEq]
      simp only [values] at ho
      refine ⟨?_, ho⟩
      have hsl : strlen n.2 = n.2.bytes.length := rfl
      by_cases hle : c - 1 ≤ strlen n.2
      · rw [Nat.min_eq_left hle]
      · rw [Nat.min_eq_right (by omega), List.take_of_length_le (by omega),
          List.take_of_length_le (by omega)]
    · rw [hs2, hs1]
      simp only [List.length_cons, Nat.cast_add, Nat.cast_one]
      omega


/-! ## The claims about `q_sort` -/

theorem le_of_key_le {l : List CStr} (h : l.Pairwise (fun s t => key s ≤ key t)) :
    l.Pairwise (fun s t => strcasecmp s t ≤ 0) :=
  h.imp (fun hst => (strcasecmp_le_iff _ _).2 hst)

/-- C1: for every queue whose `size` field equals the length of its chain, `q_sort` returns
(given enough fuel) and leaves a chain whose values from head to tail are in ascending order
under `strcasecmp`: every value compares less than or equal to every later value, and so to
its successor. -/
theorem q_sort_ascending (fuel : Nat) (h : Heap) (q : queue_t) (ns : List Node)
    (hc : isChain h ns) (hh : q.head = headPtr ns) (hs : q.size = (ns.length : Int))
    (hmax : ns.length ≤ SIZE_MAX) (hf : ns.length + 1 < fuel) :
    ∃ h' q' ns', q_sort fuel h (some q) = some (h', some q') ∧
      isChain h' ns' ∧ q'.head = headPtr ns' ∧
      (values ns').Pairwise (fun s t => strcasecmp s t ≤ 0) ∧
      (values ns').Chain' (fun s t => strcasecmp s t ≤ 0) := by
  obtain ⟨h', e, c, -⟩ := q_sort_spec fuel h q ns hc hh hs hmax hf
  have hsorted := le_of_key_le (values_sorted_of_sorted (msortL_sorted ns))
  exact ⟨h', _, msortL ns, e, c, rfl, hsorted, hsorted.chain'⟩

/-- Witness of C1: `insert_tail` of "banana", "Apple", "cherry", then `q_sort`, then three
`q_remove_head` calls deliver "Apple", "banana", "cherry". -/
theorem q_sort_ascending_witness :
    insertTails emptyHeap (q_new true) [(1, banana), (2, Apple), (3, cherry)]
        = some (fruitState.1, some fruitState.2) ∧
      (∃ h' q' ns', q_sort 5 fruitState.1 (some fruitState.2) = some (h', some q') ∧
        isChain h' ns' ∧ q'.head = headPtr ns' ∧
        (values ns').Pairwise (fun s t => strcasecmp s t ≤ 0) ∧
        (values ns').Chain' (fun s t => strcasecmp s t ≤ 0)) ∧
      ∃ r ∈ q_sort 5 fruitState.1 (some fruitState.2),
        ∃ o ∈ removeHeads (List.replicate 8 255) 8 3 r.1 r.2,
          o.2.2.map bufStr = [Apple.bytes, banana.bytes, cherry.bytes] :=
  ⟨rfl,
    q_sort_ascending 5 fruitState.1 fruitState.2 [(1, banana), (2, Apple), (3, cherry)]
      (by decide) (by decide) (by decide) (by decide) (by decide),
    by decide⟩

/-- C2: for every queue whose `size` field equals the length of its chain, `q_sort` only
relinks the existing nodes: the nodes of the chain after the sort (addresses and values) are
a permutation of the nodes before it, so the values are a permutation of the values before,
no node outside the chain is touched, and the `size` field is unchanged. -/
theorem q_sort_permutation (fuel : Nat) (h : Heap) (q : queue_t) (ns : List Node)
    (hc : isChain h ns) (hh : q.head = headPtr ns) (hs : q.size = (ns.length : Int))
    (hmax : ns.length ≤ SIZE_MAX) (hf : ns.length + 1 < fuel) :
    ∃ h' q' ns', q_sort fuel h (some q) = some (h', some q') ∧
      isChain h' ns' ∧ q'.head = headPtr ns' ∧
      ns'.Perm ns ∧ (values ns').Perm (values ns) ∧ ns'.length = ns.length ∧
      q'.size = q.size ∧ ∀ x, x ∉ ptrs ns → h' x = h x := by
  obtain ⟨h', e, c, f⟩ := q_sort_spec fuel h q ns hc hh hs hmax hf
  exact ⟨h', _, msortL ns, e, c, rfl, msortL_perm ns, (msortL_perm ns).map _,
    (msortL_perm ns).length_eq, rfl, f⟩

/-- Witness of C2 on the queue "banana", "Apple", "cherry". -/
theorem q_sort_permutation_witness :
    ∃ h' q' ns', q_sort 5 fruitState.1 (some fruitState.2) = some (h', some q') ∧
      isChain h' ns' ∧ q'.head = headPtr ns' ∧
      ns'.Perm [(1, banana), (2, Apple), (3, cherry)] ∧
      (values ns').Perm (values [(1, banana), (2, Apple), (3, cherry)]) ∧
      ns'.length = [(1, banana), (2, Apple), (3, cherry)].length ∧
      q'.size = fruitState.2.size ∧
      ∀ x, x ∉ ptrs [(1, banana), (2, Apple), (3, cherry)] → h' x = fruitState.1 x :=
  q_sort_permutation 5 fruitState.1 fruitState.2 [(1, banana), (2, Apple), (3, cherry)]
    (by decide) (by decide) (by decide) (by decide) (by decide)


/-- Counterexample to C3 as stated: in the queue "Banana", "banana" (nodes 1 and 2) the two
values compare equal, yet after `q_sort` node 2 comes first and node 1 second, so the element
that was earlier is later; `q_remove_head` then delivers "banana" before "Banana".  In the
merge step on the one-node chains 1 and 2 the tie is broken by taking node 2, the node of
the second half. -/
theorem q_sort_stable_counterexample :
    insertTails emptyHeap (q_new true) [(1, Banana), (2, banana)]
        = some (tieState.1, some tieState.2) ∧
      queueInv tieState.1 tieState.2 [(1, Banana), (2, banana)] ∧
      strcasecmp Banana banana = 0 ∧
      (∃ r ∈ q_sort 4 tieState.1 (some tieState.2),
        isChain r.1 [(2, banana), (1, Banana)] ∧
        r.2 = some { head := 2, tail := 1, size := 2 } ∧
        ∃ o ∈ removeHeads (List.replicate 8 255) 8 2 r.1 r.2,
          o.2.2.map bufStr = [banana.bytes, Banana.bytes]) ∧
      ∃ s ∈ q_split tieState.1 1 1,
        isChain s.1 [(1, Banana)] ∧ isChain s.1 [(2, banana)] ∧ s.2 = 2 ∧
        ∃ m ∈ q_merge_sorted_list 3 s.1 1 1 2,
          m.2.1 = 2 ∧ isChain m.1 [(2, banana), (1, Banana)] :=
  ⟨rfl, by decide, by decide, by decide, by decide⟩

/-- C3 as amended: `q_sort` reverses ties.  For every queue whose `size` field equals the
length of its chain and every two nodes `a` before `b` of the chain whose values compare
equal under `strcasecmp`, after `q_sort` the node `b` comes before the node `a`; and in the
merge step a tie between the front nodes is broken by taking the node of the second half:
`q_merge_sorted_list` on chains starting with `a` and `b` puts `b` first. -/
theorem q_sort_reverses_ties (fuel : Nat) (h : Heap) (q : queue_t) (ns : List Node)
    (a b : Node) (hc : isChain h ns) (hh : q.head = headPtr ns)
    (hs : q.size = (ns.length : Int)) (hmax : ns.length ≤ SIZE_MAX)
    (hf : ns.length + 1 < fuel) (heq : strcasecmp a.2 b.2 = 0) :
    ([a, b].Sublist ns →
      ∃ h' q' ns', q_sort fuel h (some q) = some (h', some q') ∧
        isChain h' ns' ∧ q'.head = headPtr ns' ∧ [b, a].Sublist ns') ∧
    ∀ (h0 : Heap) (root : Ptr) (as bs : List Node),
      isChain h0 (a :: as) → isChain h0 (b :: bs) → (ptrs (a :: as ++ b :: bs)).Nodup →
      (a :: as).length + (b :: bs).length < fuel →
      ∃ h2 ms, q_merge_sorted_list fuel h0 root a.1 b.1 = some (h2, b.1, lastPtr (b :: ms)) ∧
        isChain h2 (b :: ms) := by
  refine ⟨fun hab => ?_, fun h0 root as bs c1 c2 hnd hfm => ?_⟩
  · obtain ⟨h', e, c, -⟩ := q_sort_spec fuel h q ns hc hh hs hmax hf
    exact ⟨h', _, msortL ns, e, c, rfl,
      msortL_swaps_ties ns a b hab ((strcasecmp_eq_zero_iff _ _).1 heq)⟩
  · obtain ⟨h2, e, c, -⟩ := q_merge_sorted_list_spec fuel (a :: as) (b :: bs) h0 root c1 c2
      hnd (by simp) hfm
    have hm : mergeL (a :: as) (b :: bs) = b :: mergeL (a :: as) bs := by
      rw [mergeL, if_neg (by omega)]
    rw [hm] at e c
    exact ⟨h2, _, e, c⟩

/-- Witness of the amended C3 on the queue "Banana", "banana", and on the two one-node
chains holding "Banana" and "banana". -/
theorem q_sort_reverses_ties_witness :
    (∃ h' q' ns', q_sort 4 tieState.1 (some tieState.2) = some (h', some q') ∧
        isChain h' ns' ∧ q'.head = headPtr ns' ∧ [(2, banana), (1, Banana)].Sublist ns') ∧
    ∃ h2 ms, q_merge_sorted_list 4
        (upd (upd emptyHeap 1 (some { value := Banana, next := 0 })) 2
          (some { value := banana, next := 0 })) 0 1 2
          = some (h2, 2, lastPtr ((2, banana) :: ms)) ∧
      isChain h2 ((2, banana) :: ms) := by
  have t := q_sort_reverses_ties 4 tieState.1 tieState.2 [(1, Banana), (2, banana)]
    (1, Banana) (2, banana) (by decide) (by decide) (by decide) (by decide) (by decide)
    (by decide)
  exact ⟨t.1 (by decide), t.2 _ 0 [] [] (by decide) (by decide) (by decide) (by decide)⟩


/-- Counterexample to C4 as stated: the queue "a", "A" is in ascending order under
`strcasecmp` (the two values compare equal), yet `q_sort` turns it into "A", "a"; and a
second `q_sort` turns it back into "a", "A", which is not what one sort gives. -/
theorem q_sort_sorted_input_counterexample :
    insertTails emptyHeap (q_new true) [(1, str_a), (2, str_A)]
        = some (caseState.1, some caseState.2) ∧
      queueInv caseState.1 caseState.2 [(1, str_a), (2, str_A)] ∧
      (values [(1, str_a), (2, str_A)]).Pairwise (fun s t => strcasecmp s t ≤ 0) ∧
      ∃ r ∈ q_sort 4 caseState.1 (some caseState.2),
        isChain r.1 [(2, str_A), (1, str_a)] ∧
        r.2 = some { head := 2, tail := 1, size := 2 } ∧
        values [(2, str_A), (1, str_a)] ≠ values [(1, str_a), (2, str_A)] ∧
        ∃ r2 ∈ q_sort 4 r.1 r.2,
          isChain r2.1 [(1, str_a), (2, str_A)] ∧
          r2.2 = some { head := 1, tail := 2, size := 2 } :=
  ⟨rfl, by decide, by decide, by decide⟩

/-- C4 as amended: for every queue whose `size` field equals the length of its chain and in
which any two values that compare equal under `strcasecmp` are the same string, `q_sort`
leaves the sequence of values unchanged when it is already in ascending order, and sorting
twice gives the same sequence of values as sorting once. -/
theorem q_sort_idempotent_on_values (fuel : Nat) (h : Heap) (q : queue_t) (ns : List Node)
    (hc : isChain h ns) (hh : q.head = headPtr ns) (hs : q.size = (ns.length : Int))
    (hmax : ns.length ≤ SIZE_MAX) (hf : ns.length + 1 < fuel)
    (hT : ∀ s ∈ values ns, ∀ t ∈ values ns, strcasecmp s t = 0 → s = t) :
    ∃ h1 q1 ns1, q_sort fuel h (some q) = some (h1, some q1) ∧
      isChain h1 ns1 ∧ q1.head = headPtr ns1 ∧
      ((values ns).Pairwise (fun s t => strcasecmp s t ≤ 0) → values ns1 = values ns) ∧
      ∃ h2 q2 ns2, q_sort fuel h1 (some q1) = some (h2, some q2) ∧
        isChain h2 ns2 ∧ q2.head = headPtr ns2 ∧ values ns2 = values ns1 := by
  obtain ⟨h1, e1, c1, -⟩ := q_sort_spec fuel h q ns hc hh hs hmax hf
  have hp := msortL_perm ns
  have hlen := hp.length_eq
  obtain ⟨h2, e2, c2, -⟩ := q_sort_spec fuel h1
    (queue_t.mk (headPtr (msortL ns)) (lastPtr (msortL ns)) q.size) (msortL ns) c1 rfl
    (by rw [hlen]; exact hs) (by rw [hlen]; exact hmax) (by rw [hlen]; exact hf)
  have hT1 : ∀ s ∈ values (msortL ns), ∀ t ∈ values (msortL ns), key s = key t → s = t := by
    intro s hs' t ht' hk
    have hpv : (values (msortL ns)).Perm (values ns) := hp.map _
    exact hT s (hpv.subset hs') t (hpv.subset ht') ((strcasecmp_eq_zero_iff _ _).2 hk)
  have hsorted1 := values_sorted_of_sorted (msortL_sorted ns)
  refine ⟨h1, _, msortL ns, e1, c1, rfl, fun hsorted => ?_, h2, _, msortL (msortL ns), e2, c2,
    rfl, ?_⟩
  · refine values_eq_of_sorted_perm _ _ hp hT1 hsorted1 (hsorted.imp (fun hst => ?_))
    exact (strcasecmp_le_iff _ _).1 hst
  · exact (values_eq_of_sorted_perm _ _ (msortL_perm (msortL ns)).symm hT1 hsorted1
      (values_sorted_of_sorted (msortL_sorted _))).symm

/-- Witness of the amended C4 on the queue "Apple", "banana", "banana", "cherry", which is
in ascending order and holds two equal strings. -/
theorem q_sort_idempotent_on_values_witness :
    ∃ h1 q1 ns1, q_sort 6 sortedState.1 (some sortedState.2) = some (h1, some q1) ∧
      isChain h1 ns1 ∧ q1.head = headPtr ns1 ∧
      values ns1 = [Apple, banana, banana, cherry] ∧
      ∃ h2 q2 ns2, q_sort 6 h1 (some q1) = some (h2, some q2) ∧
        isChain h2 ns2 ∧ q2.head = headPtr ns2 ∧ values ns2 = values ns1 := by
  obtain ⟨h1, q1, ns1, e1, c1, hd1, hv1, rest⟩ :=
    q_sort_idempotent_on_values 6 sortedState.1 sortedState.2
      [(1, Apple), (2, banana), (3, banana), (4, cherry)]
      (by decide) (by decide) (by decide) (by decide) (by decide) (by decide)
  exact ⟨h1, q1, ns1, e1, c1, hd1, hv1 (by decide), rest⟩


/-! ## The claims about `q_reverse` -/

theorem values_reverse (ns : List Node) : values ns.reverse = (values ns).reverse := by
  simp [values]

/-- C5: for every non-null queue whose `head` starts the chain `ns` and whose `tail` is the
last node of `ns`, `q_reverse` returns (given enough fuel) and leaves the chain `ns.reverse`,
so the sequence of values is the reverse of the sequence before the call; the former head
node is the new tail, the former tail node is the new head, and `size` is unchanged. -/
theorem q_reverse_reverses (fuel : Nat) (h : Heap) (q : queue_t) (ns : List Node)
    (hc : isChain h ns) (hh : q.head = headPtr ns) (ht : q.tail = lastPtr ns)
    (hf : ns.length < fuel) :
    ∃ h' q', q_reverse fuel h (some q) = some (h', some q') ∧
      isChain h' ns.reverse ∧ q'.head = headPtr ns.reverse ∧
      values ns.reverse = (values ns).reverse ∧
      q'.tail = q.head ∧ q'.head = q.tail ∧ q'.tail = lastPtr ns.reverse ∧
      q'.size = q.size := by
  obtain ⟨h', e, c, -⟩ := q_reverse_spec fuel h q ns hc hh hf
  refine ⟨h', _, e, c, (headPtr_reverse ns).symm, values_reverse ns, rfl, ht.symm, ?_, rfl⟩
  rw [lastPtr_reverse]
  exact hh

/-- Witness of C5: `insert_head` of "a", "b", "c" gives the chain c, b, a; after `q_reverse`
three `q_remove_head` calls deliver "a", "b", "c". -/
theorem q_reverse_reverses_witness :
    insertHeads emptyHeap (q_new true) [(1, str_a), (2, str_b), (3, str_c)]
        = some (abcState.1, some abcState.2) ∧
      (∃ h' q', q_reverse 4 abcState.1 (some abcState.2) = some (h', some q') ∧
        isChain h' [(3, str_c), (2, str_b), (1, str_a)].reverse ∧
        q'.head = headPtr [(3, str_c), (2, str_b), (1, str_a)].reverse ∧
        values [(3, str_c), (2, str_b), (1, str_a)].reverse
          = (values [(3, str_c), (2, str_b), (1, str_a)]).reverse ∧
        q'.tail = abcState.2.head ∧ q'.head = abcState.2.tail ∧
        q'.tail = lastPtr [(3, str_c), (2, str_b), (1, str_a)].reverse ∧
        q'.size = abcState.2.size) ∧
      ∃ r ∈ q_reverse 4 abcState.1 (some abcState.2),
        ∃ o ∈ removeHeads (List.replicate 4 255) 4 3 r.1 r.2,
          o.2.2.map bufStr = [str_a.bytes, str_b.bytes, str_c.bytes] :=
  ⟨rfl,
    q_reverse_reverses 4 abcState.1 abcState.2 [(3, str_c), (2, str_b), (1, str_a)]
      (by decide) (by decide) (by decide) (by decide),
    by decide⟩

/-- C6: for every queue satisfying the data-model invariants, applying `q_reverse` twice
returns the heap and the queue record to their original state: the same chain, the same
`head` and `tail` and the same `size`. -/
theorem q_reverse_twice (fuel : Nat) (h : Heap) (q : queue_t) (ns : List Node)
    (hinv : queueInv h q ns) (hf : ns.length < fuel) :
    ∃ h1 q1, q_reverse fuel h (some q) = some (h1, some q1) ∧
      q_reverse fuel h1 (some q1) = some (h, some q) := by
  obtain ⟨hc, hh, ht, _⟩ := hinv
  obtain ⟨h1, e1, c1, f1⟩ := q_reverse_spec fuel h q ns hc hh hf
  obtain ⟨h2, e2, c2, f2⟩ := q_reverse_spec fuel h1
    (queue_t.mk (lastPtr ns) q.head q.size) ns.reverse c1 (headPtr_reverse ns).symm
    (by simpa using hf)
  rw [List.reverse_reverse] at c2
  have hheap : h2 = h := by
    refine heap_eq_of_isChain hc c2 (fun x hx => ?_)
    have hx' : x ∉ ptrs ns.reverse := by
      simpa [ptrs] using hx
    rw [f2 x hx', f1 x hx]
  refine ⟨h1, _, e1, ?_⟩
  rw [e2, hheap, lastPtr_reverse, ← hh, ← ht]

/-- Witness of C6 on the queue "banana", "Apple", "cherry". -/
theorem q_reverse_twice_witness :
    ∃ h1 q1, q_reverse 4 fruitState.1 (some fruitState.2) = some (h1, some q1) ∧
      q_reverse 4 h1 (some q1) = some (fruitState.1, some fruitState.2) :=
  q_reverse_twice 4 fruitState.1 fruitState.2 [(1, banana), (2, Apple), (3, cherry)]
    (by decide) (by decide)


/-! ## The claims about `q_remove_head` and `q_insert_tail` -/

/-- A buffer whose first bytes were replaced by `pre` and one NUL. -/
theorem overwritten_prefix (pre buf : List Nat) (hlen : pre.length < buf.length) :
    (pre ++ [0] ++ buf.drop (pre.length + 1)).length = buf.length ∧
      (pre ++ [0] ++ buf.drop (pre.length + 1)).take pre.length = pre ∧
      (pre ++ [0] ++ buf.drop (pre.length + 1))[pre.length]? = some 0 ∧
      ∀ i, pre.length < i → (pre ++ [0] ++ buf.drop (pre.length + 1))[i]? = buf[i]? := by
  refine ⟨?_, ?_, ?_, fun i hi => ?_⟩
  · simp only [List.length_append, List.length_drop, List.length_singleton]
    omega
  · rw [List.append_assoc, List.take_left']
    rfl
  · rw [List.append_assoc, List.getElem?_append_right (le_refl _)]
    simp
  · rw [List.getElem?_append_right (by simp; omega)]
    simp only [List.length_append, List.length_singleton, List.getElem?_drop]
    congr 1
    omega

/-- C7: for every queue whose chain starts with the node `n`, and every buffer of at least
`c > 0` bytes, `q_remove_head` with capacity `c` returns true; the buffer then holds the first
`min (c - 1) (strlen value)` bytes of the removed value, one NUL byte behind them, and its
old bytes at every later index, in particular at every index `≥ c`; the chain becomes the
old chain without its first node, which is freed, and `size` decreases by one. -/
theorem q_remove_head_copies (h : Heap) (q : queue_t) (n : Node) (ns : List Node)
    (buf : List Nat) (c : Nat) (hc : isChain h (n :: ns)) (hh : q.head = n.1) (hc0 : 0 < c)
    (hb : c ≤ buf.length) (hv : strlen n.2 < SIZE_MAX) :
    ∃ h' q' res, q_remove_head h (some q) (some buf) c = some (h', some q', some res, true) ∧
      res = n.2.bytes.take (copyLen c n.2) ++ [0] ++ buf.drop (copyLen c n.2 + 1) ∧
      copyLen c n.2 < c ∧ res.length = buf.length ∧
      res.take (copyLen c n.2) = n.2.bytes.take (copyLen c n.2) ∧
      res[copyLen c n.2]? = some 0 ∧
      (∀ i, copyLen c n.2 < i → res[i]? = buf[i]?) ∧
      (∀ i, c ≤ i → res[i]? = buf[i]?) ∧
      isChain h' ns ∧ q'.head = headPtr ns ∧ values ns = (values (n :: ns)).tail ∧
      h' n.1 = none ∧ q'.size = q.size - 1 := by
  obtain ⟨q1, hq1, -, hs1, -, e1, c1⟩ := q_remove_head_spec h q n ns hc hh
  have hcopy := copyOut_spec buf n.2 c hc0 hb hv
  have hlt : copyLen c n.2 < c := by unfold copyLen; omega
  have hpl : (n.2.bytes.take (copyLen c n.2)).length = copyLen c n.2 := by
    rw [List.length_take]
    have : strlen n.2 = n.2.bytes.length := rfl
    unfold copyLen
    omega
  obtain ⟨o1, o2, o3, o4⟩ := overwritten_prefix (n.2.bytes.take (copyLen c n.2)) buf
    (by rw [hpl]; omega)
  rw [hpl] at o1 o2 o3 o4
  exact ⟨_, q1, _, e1 buf c _ hcopy, rfl, hlt, o1, o2, o3, o4, fun i hi => o4 i (by omega),
    c1, hq1, rfl, upd_same _ _ _, hs1⟩

/-- Witness of C7: removing "banana" into a buffer of 4 bytes with capacity 3 leaves "ba",
a NUL and the old fourth byte in the buffer. -/
theorem q_remove_head_copies_witness :
    ∃ h' q' res, q_remove_head fruitState.1 (some fruitState.2) (some [255, 255, 255, 255]) 3
        = some (h', some q', some res, true) ∧
      res = banana.bytes.take (copyLen 3 banana) ++ [0]
        ++ [255, 255, 255, 255].drop (copyLen 3 banana + 1) ∧
      copyLen 3 banana < 3 ∧ res.length = [255, 255, 255, 255].length ∧
      res.take (copyLen 3 banana) = banana.bytes.take (copyLen 3 banana) ∧
      res[copyLen 3 banana]? = some 0 ∧
      (∀ i, copyLen 3 banana < i → res[i]? = [255, 255, 255, 255][i]?) ∧
      (∀ i, 3 ≤ i → res[i]? = [255, 255, 255, 255][i]?) ∧
      isChain h' [(2, Apple), (3, cherry)] ∧ q'.head = headPtr [(2, Apple), (3, cherry)] ∧
      values [(2, Apple), (3, cherry)] = (values [(1, banana), (2, Apple), (3, cherry)]).tail ∧
      h' (1, banana).1 = none ∧ q'.size = fruitState.2.size - 1 :=
  q_remove_head_copies fruitState.1 fruitState.2 (1, banana) [(2, Apple), (3, cherry)]
    [255, 255, 255, 255] 3 (by decide) (by decide) (by decide) (by decide) (by decide)

/-- C8, the code at the failing input: with a non-null buffer and capacity 0 the code
computes `length = 0`, passes `length - 1 = SIZE_MAX` to `strncpy` and stores a NUL at
index `SIZE_MAX`; on the one-byte buffer this is a write outside the buffer, so
`q_remove_head` has no defined result, while the same call with a `NULL` buffer removes the
head and returns true. -/
theorem q_remove_head_zero_capacity :
    queueInv oneState.1 oneState.2 [(1, str_a)] ∧
      sizePred (if 0 < sizeSucc (strlen str_a) then 0 else sizeSucc (strlen str_a)) = SIZE_MAX ∧
      strncpy [170] str_a SIZE_MAX = none ∧
      copyOut [170] str_a 0 = none ∧
      q_remove_head oneState.1 (some oneState.2) (some [170]) 0 = none ∧
      ∃ r ∈ q_remove_head oneState.1 (some oneState.2) none 0,
        r.2.1 = some { head := 0, tail := 0, size := 0 } ∧ r.2.2 = (none, true) :=
  ⟨by decide, by decide, by decide, by decide, rfl, by decide⟩

/-- C9: `q_remove_head` returns false if and only if the queue is null or empty, and in that
case the heap, the queue record (head, tail and size) and the buffer are returned as they
were, whatever the buffer and the capacity. -/
theorem q_remove_head_false_iff (h : Heap) (q : Option queue_t) (sp : Option (List Nat))
    (c : Nat) :
    ((∃ h' q' sp', q_remove_head h q sp c = some (h', q', sp', false)) ↔
        (q = none ∨ ∃ q0, q = some q0 ∧ q0.head = 0)) ∧
      ((q = none ∨ ∃ q0, q = some q0 ∧ q0.head = 0) →
        q_remove_head h q sp c = some (h, q, sp, false)) := by
  have hback : (q = none ∨ ∃ q0, q = some q0 ∧ q0.head = 0) →
      q_remove_head h q sp c = some (h, q, sp, false) := by
    rintro (rfl | ⟨q0, rfl, h0⟩)
    · rfl
    · simp [q_remove_head, h0]
  refine ⟨⟨?_, fun hq => ⟨h, q, sp, hback hq⟩⟩, hback⟩
  rintro ⟨h', q', sp', e⟩
  cases q with
  | none => exact Or.inl rfl
  | some q0 =>
    refine Or.inr ⟨q0, rfl, ?_⟩
    by_contra h0
    simp only [q_remove_head, if_neg h0] at e
    cases hd : deref h q0.head with
    | none => simp [hd] at e
    | some el =>
      simp only [hd] at e
      cases sp with
      | none => simp at e
      | some buf =>
        cases hco : copyOut buf el.value c with
        | none => simp [hco] at e
        | some res => simp [hco] at e

/-- Witness of C9: `q_remove_head` on a freshly created queue with a buffer of capacity 3
returns false and leaves the buffer and the queue as they were. -/
theorem q_remove_head_false_iff_witness :
    q_remove_head emptyHeap (q_new true) (some [1, 2, 3]) 3
      = some (emptyHeap, q_new true, some [1, 2, 3], false) :=
  (q_remove_head_false_iff emptyHeap (q_new true) (some [1, 2, 3]) 3).2
    (Or.inr ⟨{ head := 0, tail := 0, size := 0 }, rfl, rfl⟩)


theorem values_append_singleton (xs : List Node) (n : Node) :
    values (xs ++ [n]) = values xs ++ [n.2] := by
  simp [values]

/-- C10: for every non-null queue satisfying the data-model invariants with chain `xs` and
every string `s`, a successful `q_insert_tail` (`malloc` returns a fresh non-null address)
returns true, turns the sequence of values into the old one followed by `s`, makes `tail` the
new node and increases `size` by one.  Hence after `insert_tail` of the strings of `ns` into
an empty queue, as many `q_remove_head` calls deliver these strings in insertion order, each
cut to the `c - 1` bytes that fit the buffer. -/
theorem q_insert_tail_fifo (h : Heap) (q : queue_t) (xs : List Node) (s : CStr) (newh : Ptr)
    (hinv : queueInv h q xs) (h0 : newh ≠ 0) (hfresh : h newh = none) :
    (∃ h1 q1, q_insert_tail h (some q) s newh = some (h1, some q1, true) ∧
      queueInv h1 q1 (xs ++ [(newh, s)]) ∧ values (xs ++ [(newh, s)]) = values xs ++ [s] ∧
      q1.tail = newh ∧ q1.size = q.size + 1) ∧
    ∀ (ns : List Node) (buf : List Nat) (c : Nat), xs = [] →
      (∀ n ∈ ns, n.1 ≠ 0 ∧ h n.1 = none ∧ strlen n.2 < SIZE_MAX) → (ptrs ns).Nodup →
      0 < c → c ≤ buf.length →
      ∃ h1 q1 h2 q2 outs, insertTails h (some q) ns = some (h1, some q1) ∧
        queueInv h1 q1 ns ∧
        removeHeads buf c ns.length h1 (some q1) = some (h2, some q2, outs) ∧
        outs.map bufStr = (values ns).map (fun s => s.bytes.take (c - 1)) ∧
        q2.head = 0 ∧ q2.size = 0 := by
  constructor
  · obtain ⟨h1, q1, e, inv, ht, hs, -⟩ := q_insert_tail_spec h q xs s newh hinv h0 hfresh
    exact ⟨h1, q1, e, inv, values_append_singleton xs (newh, s), ht, hs⟩
  · intro ns buf c hxs hns hnd hc0 hb
    subst hxs
    obtain ⟨h1, q1, e1, inv1⟩ := insertTails_spec ns h q [] hinv
      (fun n hn => ⟨(hns n hn).1, (hns n hn).2.1⟩) hnd
    rw [List.nil_append] at inv1
    obtain ⟨h2, q2, outs, e2, ho, hq2, hs2⟩ := removeHeads_spec buf c ns h1 q1 inv1.1
      inv1.2.1 hc0 hb (fun n hn => (hns n hn).2.2)
    refine ⟨h1, q1, h2, q2, outs, e1, inv1, e2, ho, hq2, ?_⟩
    rw [hs2, inv1.2.2.2]
    omega

/-- Witness of C10: `insert_tail "cherry"` on the queue "banana", "Apple", and the strings
"banana", "Apple", "cherry" inserted into a new queue and removed again in this order. -/
theorem q_insert_tail_fifo_witness :
    (∃ h1 q1, q_insert_tail (stateOf (insertTails emptyHeap (q_new true)
          [(1, banana), (2, Apple)])).1
        (some (stateOf (insertTails emptyHeap (q_new true) [(1, banana), (2, Apple)])).2)
        cherry 3 = some (h1, some q1, true) ∧
      queueInv h1 q1 ([(1, banana), (2, Apple)] ++ [(3, cherry)]) ∧
      values ([(1, banana), (2, Apple)] ++ [(3, cherry)])
        = values [(1, banana), (2, Apple)] ++ [cherry] ∧
      q1.tail = 3 ∧
      q1.size = (stateOf (insertTails emptyHeap (q_new true)
        [(1, banana), (2, Apple)])).2.size + 1) ∧
    ∃ h1 q1 h2 q2 outs,
      insertTails emptyHeap (some { head := 0, tail := 0, size := 0 })
        [(1, banana), (2, Apple), (3, cherry)] = some (h1, some q1) ∧
      queueInv h1 q1 [(1, banana), (2, Apple), (3, cherry)] ∧
      removeHeads (List.replicate 8 255) 8 [(1, banana), (2, Apple), (3, cherry)].length
        h1 (some q1) = some (h2, some q2, outs) ∧
      outs.map bufStr = (values [(1, banana), (2, Apple), (3, cherry)]).map
        (fun s => s.bytes.take (8 - 1)) ∧
      q2.head = 0 ∧ q2.size = 0 :=
  ⟨(q_insert_tail_fifo _ _ [(1, banana), (2, Apple)] cherry 3 (by decide) (by decide)
      (by decide)).1,
    (q_insert_tail_fifo emptyHeap { head := 0, tail := 0, size := 0 } [] cherry 3 (by decide)
      (by decide) (by decide)).2 [(1, banana), (2, Apple), (3, cherry)] (List.replicate 8 255) 8
      rfl (by decide) (by decide) (by decide) (by decide)⟩


/-! ## `q_insert_head` -/

/-- A successful `q_insert_head` on a queue whose chain is `xs`: it returns true, the new node
holding `s` is put in front of the chain, `tail` becomes the new node exactly when it was
`NULL`, `size` grows by one and no other node changes. -/
theorem q_insert_head_spec (h : Heap) (q : queue_t) (xs : List Node) (s : CStr) (newh : Ptr)
    (hc : isChain h xs) (hh : q.head = headPtr xs) (h0 : newh ≠ 0) (hfresh : h newh = none) :
    q_insert_head h (some q) s newh
        = some (upd h newh (some { value := s, next := q.head }),
            some (queue_t.mk newh (if q.tail = 0 then newh else q.tail) (q.size + 1)), true) ∧
      isChain (upd h newh (some { value := s, next := q.head })) ((newh, s) :: xs) := by
  have hnm : newh ∉ ptrs xs := fun hm => isSome_of_mem_ptrs hc hm hfresh
  refine ⟨?_, h0, by rw [upd_same, hh], isChain_upd_of_not_mem _ hnm hc⟩
  simp only [q_insert_head, if_neg h0]
  by_cases ht : q.tail = 0 <;> simp [ht]

theorem lastPtr_cons_of_ne_nil (n : Node) {xs : List Node} (hne : xs ≠ []) :
    lastPtr (n :: xs) = lastPtr xs := by
  cases xs with
  | nil => exact absurd rfl hne
  | cons m ms => rfl

/-- `q_insert_head` keeps the data-model invariants. -/
theorem q_insert_head_inv (h : Heap) (q : queue_t) (xs : List Node) (s : CStr) (newh : Ptr)
    (hinv : queueInv h q xs) (h0 : newh ≠ 0) (hfresh : h newh = none) :
    ∃ h1 q1, q_insert_head h (some q) s newh = some (h1, some q1, true) ∧
      queueInv h1 q1 ((newh, s) :: xs) ∧ q1.size = q.size + 1 ∧
      q1.tail = (if xs = [] then newh else q.tail) ∧ ∀ x, x ≠ newh → h1 x = h x := by
  obtain ⟨hc, hh, ht, hs⟩ := hinv
  obtain ⟨e, c⟩ := q_insert_head_spec h q xs s newh hc hh h0 hfresh
  have htail : (if q.tail = 0 then newh else q.tail) = (if xs = [] then newh else q.tail) := by
    by_cases hx : xs = []
    · subst hx
      simp [ht, lastPtr]
    · have : q.tail ≠ 0 := ht ▸ lastPtr_ne_zero hc hx
      simp [hx, this]
  refine ⟨_, _, e, ⟨c, rfl, ?_, ?_⟩, rfl, htail, fun x hx => upd_other _ _ hx⟩
  · show (if q.tail = 0 then newh else q.tail) = lastPtr ((newh, s) :: xs)
    rw [htail]
    by_cases hx : xs = []
    · subst hx; rfl
    · rw [if_neg hx, lastPtr_cons_of_ne_nil _ hx, ht]
  · show q.size + 1 = ((((newh, s) :: xs).length : Nat) : Int)
    rw [hs]; simp


/-! ## The claims about `q_insert_head` and the round trip -/

/-- C11: for every non-null queue whose `head` starts the chain `xs` and whose `tail` is its
last node, and every string `s`, a successful `q_insert_head` (`malloc` returns a fresh
non-null address) returns true, turns the sequence of values into `s` followed by the old
sequence, increases `size` by one, sets `tail` to the new node if the queue was empty and
leaves `tail` unchanged otherwise. -/
theorem q_insert_head_prepends (h : Heap) (q : queue_t) (xs : List Node) (s : CStr)
    (newh : Ptr) (hc : isChain h xs) (hh : q.head = headPtr xs) (ht : q.tail = lastPtr xs)
    (h0 : newh ≠ 0) (hfresh : h newh = none) :
    ∃ h1 q1, q_insert_head h (some q) s newh = some (h1, some q1, true) ∧
      isChain h1 ((newh, s) :: xs) ∧ q1.head = headPtr ((newh, s) :: xs) ∧
      values ((newh, s) :: xs) = s :: values xs ∧ q1.size = q.size + 1 ∧
      (xs = [] → q1.tail = newh) ∧ (xs ≠ [] → q1.tail = q.tail) ∧
      q1.tail = lastPtr ((newh, s) :: xs) := by
  obtain ⟨e, c⟩ := q_insert_head_spec h q xs s newh hc hh h0 hfresh
  have hempty : xs = [] → (if q.tail = 0 then newh else q.tail) = newh := by
    intro hx
    subst hx
    simp [ht, lastPtr]
  have hne : xs ≠ [] → (if q.tail = 0 then newh else q.tail) = q.tail := by
    intro hx
    have : q.tail ≠ 0 := ht ▸ lastPtr_ne_zero hc hx
    simp [this]
  refine ⟨_, _, e, c, rfl, rfl, rfl, hempty, hne, ?_⟩
  show (if q.tail = 0 then newh else q.tail) = lastPtr ((newh, s) :: xs)
  by_cases hx : xs = []
  · rw [hempty hx, hx]; rfl
  · rw [hne hx, lastPtr_cons_of_ne_nil _ hx, ht]

/-- Witness of C11: `insert_head "cherry"` on the queue "banana", "Apple", with `malloc`
returning the address 3. -/
theorem q_insert_head_prepends_witness :
    ∃ h1 q1, q_insert_head (stateOf (insertTails emptyHeap (q_new true)
          [(1, banana), (2, Apple)])).1
        (some (stateOf (insertTails emptyHeap (q_new true) [(1, banana), (2, Apple)])).2)
        cherry 3 = some (h1, some q1, true) ∧
      isChain h1 ((3, cherry) :: [(1, banana), (2, Apple)]) ∧
      q1.head = headPtr ((3, cherry) :: [(1, banana), (2, Apple)]) ∧
      values ((3, cherry) :: [(1, banana), (2, Apple)])
        = cherry :: values [(1, banana), (2, Apple)] ∧
      q1.size = (stateOf (insertTails emptyHeap (q_new true)
        [(1, banana), (2, Apple)])).2.size + 1 ∧
      ([(1, banana), (2, Apple)] = [] → q1.tail = 3) ∧
      ([(1, banana), (2, Apple)] ≠ [] → q1.tail = (stateOf (insertTails emptyHeap (q_new true)
        [(1, banana), (2, Apple)])).2.tail) ∧
      q1.tail = lastPtr ((3, cherry) :: [(1, banana), (2, Apple)]) :=
  q_insert_head_prepends _ _ [(1, banana), (2, Apple)] cherry 3 (by decide) (by decide)
    (by decide) (by decide) (by decide)

theorem upd_upd_fresh (h : Heap) (p : Ptr) (v : Option list_ele_t) (hp : h p = none) :
    upd (upd h p v) p none = h := by
  funext x
  by_cases hx : x = p
  · subst hx; rw [upd_same, hp]
  · rw [upd_other _ _ hx, upd_other _ _ hx]

/-- C12: for every non-null queue satisfying the invariants, every string `v` and every
buffer of at least `c > 0` bytes, a successful `q_insert_head` followed at once by
`q_remove_head` with capacity `c` returns true, leaves in the buffer the first
`min (c - 1) (strlen v)` bytes of `v` and a NUL, and restores the heap and the queue record
(sequence, tail and size); the same holds for `q_insert_tail` when the queue is empty. -/
theorem q_insert_remove_roundtrip (h : Heap) (q : queue_t) (xs : List Node) (v : CStr)
    (newh : Ptr) (buf : List Nat) (c : Nat) (hinv : queueInv h q xs) (h0 : newh ≠ 0)
    (hfresh : h newh = none) (hc0 : 0 < c) (hb : c ≤ buf.length) (hv : strlen v < SIZE_MAX) :
    (∃ h1 q1, q_insert_head h (some q) v newh = some (h1, some q1, true) ∧
      q_remove_head h1 (some q1) (some buf) c
        = some (h, some q, some (v.bytes.take (copyLen c v) ++ [0]
            ++ buf.drop (copyLen c v + 1)), true)) ∧
    (xs = [] → ∃ h1 q1, q_insert_tail h (some q) v newh = some (h1, some q1, true) ∧
      q_remove_head h1 (some q1) (some buf) c
        = some (h, some q, some (v.bytes.take (copyLen c v) ++ [0]
            ++ buf.drop (copyLen c v + 1)), true)) := by
  have hcopy := copyOut_spec buf v c hc0 hb hv
  obtain ⟨hc, hh, ht, hs⟩ := hinv
  constructor
  · obtain ⟨e, c1⟩ := q_insert_head_spec h q xs v newh hc hh h0 hfresh
    obtain ⟨q2, hq2, ht2, hs2, -, e2, -⟩ := q_remove_head_spec _
      (queue_t.mk newh (if q.tail = 0 then newh else q.tail) (q.size + 1)) (newh, v) xs c1 rfl
    refine ⟨_, _, e, ?_⟩
    rw [e2 buf c _ hcopy, upd_upd_fresh h newh _ hfresh]
    have hq : q2 = q := by
      cases q with
      | mk qh qt qs =>
        cases q2 with
        | mk a b d =>
          simp only at hq2 ht2 hs2 hh ht
          subst hq2 hs2 hh
          simp only [queue_t.mk.injEq, true_and]
          refine ⟨?_, by omega⟩
          rw [ht2]
          by_cases hx : xs = []
          · rw [if_pos hx, ht, hx]; rfl
          · have : qt ≠ 0 := ht ▸ lastPtr_ne_zero hc hx
            rw [if_neg hx, if_neg this]
    rw [hq]
    rfl
  · intro hx
    subst hx
    have hq0 : q.head = 0 := hh
    have ht0 : q.tail = 0 := ht
    have c1 : isChain (upd h newh (some { value := v, next := 0 })) [(newh, v)] :=
      ⟨h0, upd_same _ _ _, trivial⟩
    obtain ⟨q2, hq2, ht2, hs2, -, e2, -⟩ := q_remove_head_spec _
      (queue_t.mk newh newh (q.size + 1)) (newh, v) [] c1 rfl
    refine ⟨upd h newh (some { value := v, next := 0 }), queue_t.mk newh newh (q.size + 1),
      by simp [q_insert_tail, h0, ht0], ?_⟩
    rw [e2 buf c _ hcopy, upd_upd_fresh h newh _ hfresh]
    have hq : q2 = q := by
      cases q with
      | mk qh qt qs =>
        cases q2 with
        | mk a b d =>
          simp only at hq2 ht2 hs2 hq0 ht0
          subst hq2 hq0 ht0 hs2
          simp only [queue_t.mk.injEq]
          exact ⟨rfl, by simpa using ht2, by omega⟩
    rw [hq]
    rfl

/-- Witness of C12: "cherry" inserted at the head of the queue "banana", "Apple" and removed
at once with capacity 4, and inserted at the tail of an empty queue and removed at once. -/
theorem q_insert_remove_roundtrip_witness :
    (∃ h1 q1, q_insert_head emptyHeap (some { head := 0, tail := 0, size := 0 }) cherry 3
        = some (h1, some q1, true) ∧
      q_remove_head h1 (some q1) (some [255, 255, 255, 255, 255]) 4
        = some (emptyHeap, some { head := 0, tail := 0, size := 0 },
            some (cherry.bytes.take (copyLen 4 cherry) ++ [0]
              ++ [255, 255, 255, 255, 255].drop (copyLen 4 cherry + 1)), true)) ∧
    (∃ h1 q1, q_insert_tail emptyHeap (some { head := 0, tail := 0, size := 0 }) cherry 3
        = some (h1, some q1, true) ∧
      q_remove_head h1 (some q1) (some [255, 255, 255, 255, 255]) 4
        = some (emptyHeap, some { head := 0, tail := 0, size := 0 },
            some (cherry.bytes.take (copyLen 4 cherry) ++ [0]
              ++ [255, 255, 255, 255, 255].drop (copyLen 4 cherry + 1)), true)) ∧
    ∃ h1 q1, q_insert_head fruitState.1 (some fruitState.2) str_a 4
        = some (h1, some q1, true) ∧
      q_remove_head h1 (some q1) (some [255, 255, 255, 255, 255]) 4
        = some (fruitState.1, some fruitState.2,
            some (str_a.bytes.take (copyLen 4 str_a) ++ [0]
              ++ [255, 255, 255, 255, 255].drop (copyLen 4 str_a + 1)), true) := by
  have t := q_insert_remove_roundtrip emptyHeap { head := 0, tail := 0, size := 0 } [] cherry 3
    [255, 255, 255, 255, 255] 4 (by decide) (by decide) (by decide) (by decide) (by decide)
    (by decide)
  exact ⟨t.1, t.2 rfl,
    (q_insert_remove_roundtrip fruitState.1 fruitState.2 [(1, banana), (2, Apple), (3, cherry)]
      str_a 4 [255, 255, 255, 255, 255] 4 (by decide) (by decide) (by decide) (by decide)
      (by decide) (by decide)).1⟩


/-! ## Null queues, empty queues and allocation failure -/

/-- C15: on a null queue `q_insert_head` and `q_insert_tail` return false, `q_remove_head`
returns false, `q_size` returns 0 and `q_reverse` and `q_sort` do nothing; on an empty
non-null queue (`head` and `tail` `NULL`, `size` 0) `q_remove_head`, `q_reverse`, `q_sort`
and `q_size` leave `head` and `tail` `NULL` and `size` at 0.  Heap and buffer are never
touched. -/
theorem null_and_empty_queue (h : Heap) (s : CStr) (newh : Ptr) (sp : Option (List Nat))
    (c : Nat) (fuel : Nat) (hf : 0 < fuel) :
    (q_insert_head h none s newh = some (h, none, false) ∧
      q_insert_tail h none s newh = some (h, none, false) ∧
      q_remove_head h none sp c = some (h, none, sp, false) ∧
      q_size none = 0 ∧
      q_reverse fuel h none = some (h, none) ∧
      q_sort fuel h none = some (h, none)) ∧
    (q_remove_head h (some { head := 0, tail := 0, size := 0 }) sp c
        = some (h, some { head := 0, tail := 0, size := 0 }, sp, false) ∧
      q_reverse fuel h (some { head := 0, tail := 0, size := 0 })
        = some (h, some { head := 0, tail := 0, size := 0 }) ∧
      q_sort fuel h (some { head := 0, tail := 0, size := 0 })
        = some (h, some { head := 0, tail := 0, size := 0 }) ∧
      q_size (some { head := 0, tail := 0, size := 0 }) = 0) := by
  obtain ⟨k, rfl⟩ : ∃ k, fuel = k + 1 := ⟨fuel - 1, by omega⟩
  refine ⟨⟨rfl, rfl, rfl, rfl, rfl, rfl⟩, by simp [q_remove_head], ?_, ?_, rfl⟩
  · simp [q_reverse, q_reverse_loop]
  · have h0 : toSizeT 0 = 0 := by decide
    simp [q_sort, merge_sort, h0]

/-- Witness of C15 on the heap of the queue "banana", "Apple", "cherry", with a buffer of
three bytes. -/
theorem null_and_empty_queue_witness :
    (q_insert_head fruitState.1 none str_a 4 = some (fruitState.1, none, false) ∧
      q_insert_tail fruitState.1 none str_a 4 = some (fruitState.1, none, false) ∧
      q_remove_head fruitState.1 none (some [1, 2, 3]) 3
        = some (fruitState.1, none, some [1, 2, 3], false) ∧
      q_size none = 0 ∧
      q_reverse 1 fruitState.1 none = some (fruitState.1, none) ∧
      q_sort 1 fruitState.1 none = some (fruitState.1, none)) ∧
    (q_remove_head fruitState.1 (some { head := 0, tail := 0, size := 0 }) (some [1, 2, 3]) 3
        = some (fruitState.1, some { head := 0, tail := 0, size := 0 }, some [1, 2, 3], false) ∧
      q_reverse 1 fruitState.1 (some { head := 0, tail := 0, size := 0 })
        = some (fruitState.1, some { head := 0, tail := 0, size := 0 }) ∧
      q_sort 1 fruitState.1 (some { head := 0, tail := 0, size := 0 })
        = some (fruitState.1, some { head := 0, tail := 0, size := 0 }) ∧
      q_size (some { head := 0, tail := 0, size := 0 }) = 0) :=
  null_and_empty_queue fruitState.1 str_a 4 (some [1, 2, 3]) 3 1 (by decide)

/-- C16: for every non-null queue and every string `s`, if the allocation of the node fails
(`malloc` returns `NULL`) then `q_insert_head` and `q_insert_tail` return false and the heap
and the queue record (head, tail, size, and so the sequence of values) are what they were. -/
theorem insert_allocation_failure (h : Heap) (q : queue_t) (s : CStr) :
    q_insert_head h (some q) s 0 = some (h, some q, false) ∧
      q_insert_tail h (some q) s 0 = some (h, some q, false) :=
  ⟨by simp [q_insert_head], by simp [q_insert_tail]⟩


/-! ## One level of `merge_sort` -/

theorem msortL_ne_nil {ns : List Node} (hne : ns ≠ []) : msortL ns ≠ [] := by
  intro e
  have := (msortL_perm ns).length_eq
  rw [e] at this
  exact hne (List.eq_nil_of_length_eq_zero this.symm)

theorem headPtr_take (ns : List Node) {k : Nat} (hk : 0 < k) :
    headPtr (ns.take k) = headPtr ns := by
  obtain ⟨j, rfl⟩ : ∃ j, k = j + 1 := ⟨k - 1, by omega⟩
  cases ns <;> rfl

/-- The calls one level of `merge_sort` makes on a chain `ns` of at least two nodes, with
`A` the first `ll = n - n / 2` nodes and `B` the remaining `n / 2`: `q_split` cuts the chain
into `A` and `B`, the two recursive calls sort them, and `q_merge_sorted_list` merges the two
sorted chains and returns the last node of the result. -/
theorem merge_sort_level (fuel : Nat) (ns : List Node) (h : Heap) (hc : isChain h ns)
    (hn : 2 ≤ ns.length) (hf : ns.length < fuel) :
    ∃ h1 h2 h3 h4,
      q_split h (headPtr ns) (ns.length - ns.length / 2)
        = some (h1, headPtr (ns.drop (ns.length - ns.length / 2))) ∧
      isChain h1 (ns.take (ns.length - ns.length / 2)) ∧
      isChain h1 (ns.drop (ns.length - ns.length / 2)) ∧
      merge_sort fuel h1 (headPtr ns) (ns.length - ns.length / 2)
        = some (h2, headPtr (msortL (ns.take (ns.length - ns.length / 2))),
            lastPtr (msortL (ns.take (ns.length - ns.length / 2)))) ∧
      merge_sort fuel h2 (headPtr (ns.drop (ns.length - ns.length / 2))) (ns.length / 2)
        = some (h3, headPtr (msortL (ns.drop (ns.length - ns.length / 2))),
            lastPtr (msortL (ns.drop (ns.length - ns.length / 2)))) ∧
      isChain h3 (msortL (ns.take (ns.length - ns.length / 2))) ∧
      isChain h3 (msortL (ns.drop (ns.length - ns.length / 2))) ∧
      q_merge_sorted_list fuel h3 (headPtr (msortL (ns.take (ns.length - ns.length / 2))))
          (headPtr (msortL (ns.take (ns.length - ns.length / 2))))
          (headPtr (msortL (ns.drop (ns.length - ns.length / 2))))
        = some (h4, headPtr (msortL ns), lastPtr (msortL ns)) ∧
      isChain h4 (msortL ns) ∧
      merge_sort (fuel + 1) h (headPtr ns) ns.length
        = some (h4, headPtr (msortL ns), lastPtr (msortL ns)) := by
  have hlt : ¬ ns.length < 2 := by omega
  have hll1 : 0 < ns.length - ns.length / 2 := by omega
  have hll2 : ns.length - ns.length / 2 ≤ ns.length := by omega
  have hnd : (ptrs (ns.take (ns.length - ns.length / 2)
      ++ ns.drop (ns.length - ns.length / 2))).Nodup := by
    rw [List.take_append_drop]; exact isChain_nodup hc
  have hdisj := List.disjoint_of_nodup_append (by
    simpa only [ptrs, List.map_append] using hnd)
  have hhead := headPtr_take ns hll1
  have hms := msortL_of_ge ns hlt
  generalize hA : ns.take (ns.length - ns.length / 2) = A at *
  generalize hB : ns.drop (ns.length - ns.length / 2) = B at *
  have hlenA : A.length = ns.length - ns.length / 2 := by
    rw [← hA, List.length_take]; omega
  have hlenB : B.length = ns.length / 2 := by
    rw [← hB, List.length_drop]; omega
  obtain ⟨h1, e1, cA, cB, -⟩ := q_split_spec h ns _ hc hll1 hll2
  rw [hA] at cA
  rw [hB] at cB e1
  obtain ⟨h2, e2, cA2, f2⟩ := merge_sort_spec fuel A h1 cA (by omega)
  have cB2 : isChain h2 B :=
    isChain_congr (fun p hp => f2 p (fun hp' => hdisj hp' hp)) cB
  obtain ⟨h3, e3, cB3, f3⟩ := merge_sort_spec fuel B h2 cB2 (by omega)
  have pA := ptrs_perm (msortL_perm A)
  have cA3 : isChain h3 (msortL A) :=
    isChain_congr (fun p hp => f3 p (fun hp' => hdisj (pA.subset hp) hp')) cA2
  have hnd3 : (ptrs (msortL A ++ msortL B)).Nodup := by
    have : (ptrs (msortL A ++ msortL B)).Perm (ptrs (A ++ B)) :=
      ptrs_perm ((msortL_perm A).append (msortL_perm B))
    exact this.nodup_iff.2 hnd
  have hneA : A ≠ [] := by
    intro e; rw [e] at hlenA; simp at hlenA; omega
  obtain ⟨h4, e4, c4, -⟩ := q_merge_sorted_list_spec fuel (msortL A) (msortL B) h3
    (headPtr (msortL A)) cA3 cB3 hnd3 (by simp [msortL_ne_nil hneA]) (by
      rw [(msortL_perm A).length_eq, (msortL_perm B).length_eq]; omega)
  rw [← hms] at e4 c4
  rw [hlenA, hhead] at e2
  rw [hlenB] at e3
  refine ⟨h1, h2, h3, h4, e1, cA, cB, e2, e3, cA3, cB3, e4, c4, ?_⟩
  rw [merge_sort, if_neg hlt]
  simp only [e1, e2, e3, e4]


/-! ## The claims about the steps of the sort -/

/-- C17: for every chain of `n ≥ 2` nodes, `merge_sort` computes `rl = n / 2` and
`ll = n - rl` and calls `q_split(head, ll)`, which cuts the chain into a first half holding
the first `ceil(n / 2)` nodes in their original order and a second half, returned by
`q_split`, holding the remaining `floor(n / 2)` nodes in their original order; the recursive
calls and the merge then work on these two halves. -/
theorem q_split_halves (fuel : Nat) (h : Heap) (ns : List Node) (hc : isChain h ns)
    (hn : 2 ≤ ns.length) :
    ∃ h1, q_split h (headPtr ns) (ns.length - ns.length / 2)
        = some (h1, headPtr (ns.drop (ns.length - ns.length / 2))) ∧
      isChain h1 (ns.take (ns.length - ns.length / 2)) ∧
      isChain h1 (ns.drop (ns.length - ns.length / 2)) ∧
      ns.length - ns.length / 2 = (ns.length + 1) / 2 ∧
      (ns.take (ns.length - ns.length / 2)).length = (ns.length + 1) / 2 ∧
      (ns.drop (ns.length - ns.length / 2)).length = ns.length / 2 ∧
      ns.take (ns.length - ns.length / 2) ++ ns.drop (ns.length - ns.length / 2) = ns ∧
      values (ns.take (ns.length - ns.length / 2)) = (values ns).take ((ns.length + 1) / 2) ∧
      values (ns.drop (ns.length - ns.length / 2)) = (values ns).drop ((ns.length + 1) / 2) ∧
      merge_sort (fuel + 1) h (headPtr ns) ns.length
        = (merge_sort fuel h1 (headPtr ns) (ns.length - ns.length / 2)).bind (fun r =>
            (merge_sort fuel r.1 (headPtr (ns.drop (ns.length - ns.length / 2)))
              (ns.length / 2)).bind (fun r2 =>
                q_merge_sorted_list fuel r2.1 r.2.1 r.2.1 r2.2.1)) := by
  have hll : ns.length - ns.length / 2 = (ns.length + 1) / 2 := by omega
  obtain ⟨h1, e1, cA, cB, -⟩ := q_split_spec h ns (ns.length - ns.length / 2) hc (by omega)
    (by omega)
  refine ⟨h1, e1, cA, cB, hll, ?_, ?_, List.take_append_drop _ _, ?_, ?_, ?_⟩
  · rw [List.length_take]; omega
  · rw [List.length_drop]; omega
  · rw [← hll]; simp [values, List.map_take]
  · rw [← hll]; simp [values, List.map_drop]
  · rw [merge_sort, if_neg (by omega)]
    simp only [e1]
    cases merge_sort fuel h1 (headPtr ns) (ns.length - ns.length / 2) with
    | none => rfl
    | some r =>
      obtain ⟨h2, root2, t2⟩ := r
      simp only [Option.some_bind]
      cases merge_sort fuel h2 (headPtr (ns.drop (ns.length - ns.length / 2)))
          (ns.length / 2) with
      | none => rfl
      | some r2 =>
        obtain ⟨h3, mid3, t3⟩ := r2
        rfl

/-- Witness of C17 on the chain "banana", "Apple", "cherry": the first half holds two
nodes, the second one. -/
theorem q_split_halves_witness :
    ∃ h1, q_split fruitState.1 (headPtr [(1, banana), (2, Apple), (3, cherry)])
        ([(1, banana), (2, Apple), (3, cherry)].length
          - [(1, banana), (2, Apple), (3, cherry)].length / 2) = some (h1, 3) ∧
      isChain h1 [(1, banana), (2, Apple)] ∧ isChain h1 [(3, cherry)] := by
  obtain ⟨h1, e, cA, cB, -⟩ := q_split_halves 0 fruitState.1
    [(1, banana), (2, Apple), (3, cherry)] (by decide) (by decide)
  exact ⟨h1, e, cA, cB⟩


/-- One iteration of the first loop of `q_merge_sorted_list` on two non-empty chains: the
loop goes on with one of the chains shortened by its front node. -/
theorem mergeLoop_step (f : Nat) (h : Heap) (root : Ptr) (loc : Loc) (a b : Node)
    (as bs : List Node) (c1 : isChain h (a :: as)) (c2 : isChain h (b :: bs))
    (hl : locOk h (a :: as ++ b :: bs) loc) :
    (strcasecmp a.2 b.2 < 0 → ∃ h1 root1,
        mergeLoop (f + 1) h root loc a.1 b.1
          = mergeLoop f h1 root1 (Loc.next a.1) (headPtr as) b.1 ∧
        isChain h1 as ∧ isChain h1 (b :: bs)) ∧
      (¬ strcasecmp a.2 b.2 < 0 → ∃ h1 root1,
        mergeLoop (f + 1) h root loc a.1 b.1
          = mergeLoop f h1 root1 (Loc.next b.1) a.1 (headPtr bs) ∧
        isChain h1 (a :: as) ∧ isChain h1 bs) := by
  have ha0 : a.1 ≠ 0 := c1.1
  have hb0 : b.1 ≠ 0 := c2.1
  constructor
  · intro hlt
    obtain ⟨h1, root1, e, -, -, fr⟩ := store_spec h root (a :: as ++ b :: bs) loc a.1 hl
    have c1' : isChain h1 (a :: as) := isChain_congr (fun p hp => fr p (by
      simp only [ptrs, List.map_append, List.mem_append] at hp ⊢; exact Or.inl hp)) c1
    have c2' : isChain h1 (b :: bs) := isChain_congr (fun p hp => fr p (by
      simp only [ptrs, List.map_append, List.mem_append] at hp ⊢; exact Or.inr hp)) c2
    refine ⟨h1, root1, ?_, c1'.2.2, c2'⟩
    rw [mergeLoop, if_pos ⟨ha0, hb0⟩]
    simp only [deref_head c1, deref_head c2, if_pos hlt, e, deref_head c1']
  · intro hlt
    obtain ⟨h1, root1, e, -, -, fr⟩ := store_spec h root (a :: as ++ b :: bs) loc b.1 hl
    have c1' : isChain h1 (a :: as) := isChain_congr (fun p hp => fr p (by
      simp only [ptrs, List.map_append, List.mem_append] at hp ⊢; exact Or.inl hp)) c1
    have c2' : isChain h1 (b :: bs) := isChain_congr (fun p hp => fr p (by
      simp only [ptrs, List.map_append, List.mem_append] at hp ⊢; exact Or.inr hp)) c2
    refine ⟨h1, root1, ?_, c1', c2'.2.2⟩
    rw [mergeLoop, if_pos ⟨ha0, hb0⟩]
    simp only [deref_head c1, deref_head c2, if_neg hlt, e, deref_head c2']

/-- The first loop of `q_merge_sorted_list` ends as soon as one chain is used up. -/
theorem mergeLoop_exit (f : Nat) (h : Heap) (root : Ptr) (loc : Loc) (first second : Ptr)
    (hz : first = 0 ∨ second = 0) :
    mergeLoop (f + 1) h root loc first second = some (h, root, loc, first, second) := by
  rw [mergeLoop, if_neg]
  rcases hz with hz | hz <;> simp [hz]

/-- One iteration of the second loop of `q_merge_sorted_list`: on a chain of at least two
nodes it moves to the link of the first node, on a chain of one node it returns that node. -/
theorem lastLoop_step (f : Nat) (h : Heap) (root : Ptr) (loc : Loc) (n : Node)
    (rest : List Node) (hc : isChain h (n :: rest)) (hld : load h root loc = some n.1) :
    (rest ≠ [] → lastLoop (f + 1) h root loc = lastLoop f h root (Loc.next n.1) ∧
        load h root (Loc.next n.1) = some (headPtr rest)) ∧
      (rest = [] → lastLoop (f + 1) h root loc = some n.1) := by
  constructor
  · intro hne
    have hm0 : headPtr rest ≠ 0 := by
      cases rest with
      | nil => exact absurd rfl hne
      | cons m ms => exact hc.2.2.1
    refine ⟨?_, by simp [load, deref_head hc]⟩
    rw [lastLoop, hld]
    simp only [deref_head hc, ne_eq, hm0, not_false_eq_true, if_true]
  · intro he
    subst he
    rw [lastLoop, hld]
    simp [deref_head hc, headPtr]

/-- C18: `merge_sort` is total on chains: for every chain of `n` nodes and every fuel above
`n + 1` it returns; for `n ≥ 2` both recursive calls, on `ceil(n / 2)` and `floor(n / 2)`
nodes, are on sizes that are at least 1 and strictly smaller than `n`, and they return;
`q_split` is entered with `step ≥ 1`, so its countdown does not wrap and walks `step - 1`
links; and every iteration of the two loops of `q_merge_sorted_list` goes on with a chain
shortened by one node or ends the loop. -/
theorem merge_sort_total (fuel : Nat) (h : Heap) (ns : List Node) (hc : isChain h ns)
    (hf : ns.length + 1 < fuel) :
    (∃ h' hd tl, merge_sort fuel h (headPtr ns) ns.length = some (h', hd, tl)) ∧
    (2 ≤ ns.length →
      (1 ≤ ns.length - ns.length / 2 ∧ ns.length - ns.length / 2 < ns.length ∧
        1 ≤ ns.length / 2 ∧ ns.length / 2 < ns.length ∧
        ns.length - ns.length / 2 = (ns.length + 1) / 2) ∧
      sizePred (ns.length - ns.length / 2) = ns.length - ns.length / 2 - 1 ∧
      ∃ h1 mid r1 r2 r3, q_split h (headPtr ns) (ns.length - ns.length / 2) = some (h1, mid) ∧
        merge_sort (fuel - 1) h1 (headPtr ns) (ns.length - ns.length / 2) = some r1 ∧
        merge_sort (fuel - 1) r1.1 mid (ns.length / 2) = some r2 ∧
        q_merge_sorted_list (fuel - 1) r2.1 r1.2.1 r1.2.1 r2.2.1 = some r3) ∧
    (∀ (f : Nat) (h0 : Heap) (root : Ptr) (loc : Loc) (a b : Node) (as bs : List Node),
      isChain h0 (a :: as) → isChain h0 (b :: bs) → locOk h0 (a :: as ++ b :: bs) loc →
      ∃ h1 root1, isChain h1 as ∧ isChain h1 bs ∧
        (mergeLoop (f + 1) h0 root loc a.1 b.1
            = mergeLoop f h1 root1 (Loc.next a.1) (headPtr as) b.1 ∨
          mergeLoop (f + 1) h0 root loc a.1 b.1
            = mergeLoop f h1 root1 (Loc.next b.1) a.1 (headPtr bs))) ∧
    (∀ (f : Nat) (h0 : Heap) (root : Ptr) (loc : Loc) (first second : Ptr),
      first = 0 ∨ second = 0 →
      mergeLoop (f + 1) h0 root loc first second = some (h0, root, loc, first, second)) ∧
    (∀ (f : Nat) (h0 : Heap) (root : Ptr) (loc : Loc) (n : Node) (rest : List Node),
      isChain h0 (n :: rest) → load h0 root loc = some n.1 →
      (rest ≠ [] → lastLoop (f + 1) h0 root loc = lastLoop f h0 root (Loc.next n.1) ∧
        load h0 root (Loc.next n.1) = some (headPtr rest)) ∧
      (rest = [] → lastLoop (f + 1) h0 root loc = some n.1)) := by
  refine ⟨?_, fun hn => ⟨by omega, sizePred_eq (by omega), ?_⟩, ?_, mergeLoop_exit,
    lastLoop_step⟩
  · obtain ⟨h', e, -, -⟩ := merge_sort_spec fuel ns h hc hf
    exact ⟨h', _, _, e⟩
  · obtain ⟨k, rfl⟩ : ∃ k, fuel = k + 1 := ⟨fuel - 1, by omega⟩
    obtain ⟨h1, h2, h3, h4, e1, -, -, e2, e3, -, -, e4, -, -⟩ :=
      merge_sort_level k ns h hc hn (by omega)
    exact ⟨h1, _, _, _, _, e1, e2, e3, e4⟩
  · intro f h0 root loc a b as bs c1 c2 hl
    obtain ⟨s1, s2⟩ := mergeLoop_step f h0 root loc a b as bs c1 c2 hl
    by_cases hlt : strcasecmp a.2 b.2 < 0
    · obtain ⟨h1, root1, e, ca, cb⟩ := s1 hlt
      exact ⟨h1, root1, ca, cb.2.2, Or.inl e⟩
    · obtain ⟨h1, root1, e, ca, cb⟩ := s2 hlt
      exact ⟨h1, root1, ca.2.2, cb, Or.inr e⟩

/-- Witness of C18 on the chain "banana", "Apple", "cherry" with fuel 5. -/
theorem merge_sort_total_witness :
    ∃ h' hd tl, merge_sort 5 fruitState.1 (headPtr [(1, banana), (2, Apple), (3, cherry)])
      [(1, banana), (2, Apple), (3, cherry)].length = some (h', hd, tl) :=
  (merge_sort_total 5 fruitState.1 [(1, banana), (2, Apple), (3, cherry)] (by decide)
    (by decide)).1


/-- C20: for every queue whose `size` field equals the length of its chain, `q_sort` never
follows an empty link: it returns (a `NULL` dereference would leave no result), and the
`tail` it stores is the last node of the sorted chain, a live node whose link is `NULL`.
In every call `merge_sort(head, size)` on a chain of `size ≥ 2` nodes, `q_split` is called
with `1 ≤ step ≤ size` and returns, both halves are non-empty chains whose lengths are the
sizes passed to the recursive calls, and `q_merge_sorted_list` receives two non-empty chains
and returns the last node of the merged chain. -/
theorem q_sort_follows_no_null (fuel : Nat) (h : Heap) (q : queue_t) (ns : List Node)
    (hc : isChain h ns) (hh : q.head = headPtr ns) (hs : q.size = (ns.length : Int))
    (hmax : ns.length ≤ SIZE_MAX) (hf : ns.length + 1 < fuel) :
    (∃ h' ns', q_sort fuel h (some q)
        = some (h', some (queue_t.mk (headPtr ns') (lastPtr ns') q.size)) ∧
      isChain h' ns' ∧
      (ns ≠ [] → lastPtr ns' ≠ 0 ∧ ∃ v, h' (lastPtr ns') = some { value := v, next := 0 })) ∧
    ∀ (f : Nat) (h0 : Heap) (l : List Node), isChain h0 l → 2 ≤ l.length → l.length < f →
      ∃ h1 h2 h3 h4 A B A' B' M,
        1 ≤ l.length - l.length / 2 ∧ l.length - l.length / 2 ≤ l.length ∧
        q_split h0 (headPtr l) (l.length - l.length / 2) = some (h1, headPtr B) ∧
        isChain h1 A ∧ isChain h1 B ∧ A ≠ [] ∧ B ≠ [] ∧ headPtr A = headPtr l ∧
        A.length = l.length - l.length / 2 ∧ B.length = l.length / 2 ∧
        merge_sort f h1 (headPtr A) A.length = some (h2, headPtr A', lastPtr A') ∧
        isChain h2 B ∧
        merge_sort f h2 (headPtr B) B.length = some (h3, headPtr B', lastPtr B') ∧
        isChain h3 A' ∧ isChain h3 B' ∧ headPtr A' ≠ 0 ∧ headPtr B' ≠ 0 ∧
        q_merge_sorted_list f h3 (headPtr A') (headPtr A') (headPtr B')
          = some (h4, headPtr M, lastPtr M) ∧
        isChain h4 M ∧ lastPtr M ≠ 0 ∧
        (∃ v, h4 (lastPtr M) = some { value := v, next := 0 }) ∧
        merge_sort (f + 1) h0 (headPtr l) l.length = some (h4, headPtr M, lastPtr M) := by
  constructor
  · obtain ⟨h', e, c, -⟩ := q_sort_spec fuel h q ns hc hh hs hmax hf
    refine ⟨h', msortL ns, e, c, fun hne => ?_⟩
    exact ⟨lastPtr_ne_zero c (msortL_ne_nil hne), last_next_null c (msortL_ne_nil hne)⟩
  · intro f h0 l c0 hn hlf
    have hll1 : 0 < l.length - l.length / 2 := by omega
    have hlenA : (l.take (l.length - l.length / 2)).length = l.length - l.length / 2 := by
      rw [List.length_take]; omega
    have hlenB : (l.drop (l.length - l.length / 2)).length = l.length / 2 := by
      rw [List.length_drop]; omega
    have hneA : l.take (l.length - l.length / 2) ≠ [] := by
      intro e; rw [e] at hlenA; simp at hlenA; omega
    have hneB : l.drop (l.length - l.length / 2) ≠ [] := by
      intro e; rw [e] at hlenB; simp at hlenB; omega
    have hl0 : l ≠ [] := by
      intro e; rw [e] at hn; simp at hn
    obtain ⟨h1, h2, h3, h4, e1, cA, cB, e2, e3, cA3, cB3, e4, c4, e5⟩ :=
      merge_sort_level f l h0 c0 hn hlf
    have hhead := headPtr_take l hll1
    have cB2 : isChain h2 (l.drop (l.length - l.length / 2)) := by
      obtain ⟨h2', e2', -, f2⟩ := merge_sort_spec f _ h1 cA (by rw [hlenA]; omega)
      rw [hlenA, hhead, e2] at e2'
      have hh2 : h2 = h2' := by
        have := Option.some.inj e2'
        exact congrArg Prod.fst this
      have hnd : (ptrs (l.take (l.length - l.length / 2)
          ++ l.drop (l.length - l.length / 2))).Nodup := by
        rw [List.take_append_drop]; exact isChain_nodup c0
      have hdisj := List.disjoint_of_nodup_append (by
        simpa only [ptrs, List.map_append] using hnd)
      rw [hh2]
      exact isChain_congr (fun p hp => f2 p (fun hp' => hdisj hp' hp)) cB
    refine ⟨h1, h2, h3, h4, _, _, _, _, msortL l, by omega, by omega, e1, cA, cB, hneA, hneB,
      hhead, hlenA, hlenB, ?_, cB2, ?_, cA3, cB3, ?_, ?_, e4, c4, ?_, ?_, e5⟩
    · rw [hlenA, hhead]; exact e2
    · rw [hlenB]; exact e3
    · cases hq : msortL (l.take (l.length - l.length / 2)) with
      | nil => exact absurd hq (msortL_ne_nil hneA)
      | cons x xs => rw [hq] at cA3; exact cA3.1
    · cases hq : msortL (l.drop (l.length - l.length / 2)) with
      | nil => exact absurd hq (msortL_ne_nil hneB)
      | cons x xs => rw [hq] at cB3; exact cB3.1
    · exact lastPtr_ne_zero c4 (msortL_ne_nil hl0)
    · exact last_next_null c4 (msortL_ne_nil hl0)

/-- Witness of C20 on the queue "banana", "Apple", "cherry". -/
theorem q_sort_follows_no_null_witness :
    ∃ h' ns', q_sort 5 fruitState.1 (some fruitState.2)
        = some (h', some (queue_t.mk (headPtr ns') (lastPtr ns') fruitState.2.size)) ∧
      isChain h' ns' ∧
      ([(1, banana), (2, Apple), (3, cherry)] ≠ [] →
        lastPtr ns' ≠ 0 ∧ ∃ v, h' (lastPtr ns') = some { value := v, next := 0 }) :=
  (q_sort_follows_no_null 5 fruitState.1 fruitState.2 [(1, banana), (2, Apple), (3, cherry)]
    (by decide) (by decide) (by decide) (by decide) (by decide)).1


/-! ## `q_sort` as the stable sort of the reversed chain -/

theorem insertStable_perm (a : Node) (l : List Node) : (insertStable a l).Perm (a :: l) := by
  induction l with
  | nil => exact List.Perm.refl _
  | cons b l ih =>
    rw [insertStable]
    split
    · exact List.Perm.refl _
    · exact (ih.cons b).trans (List.Perm.swap a b l)

theorem stableSort_perm (l : List Node) : (stableSort l).Perm l := by
  induction l with
  | nil => exact List.Perm.refl _
  | cons a l ih => exact (insertStable_perm a _).trans (ih.cons a)

theorem insertStable_sorted (a : Node) (l : List Node)
    (hl : l.Pairwise (fun x y => key x.2 ≤ key y.2)) :
    (insertStable a l).Pairwise (fun x y => key x.2 ≤ key y.2) := by
  induction l with
  | nil => exact List.pairwise_singleton _ _
  | cons b l ih =>
    rw [insertStable]
    rw [List.pairwise_cons] at hl
    split
    · rename_i hle
      rw [strcasecmp_le_iff] at hle
      refine List.pairwise_cons.2 ⟨fun x hx => ?_, List.pairwise_cons.2 hl⟩
      rcases List.mem_cons.1 hx with rfl | hx
      · exact hle
      · exact le_trans hle (hl.1 x hx)
    · rename_i hle
      rw [strcasecmp_le_iff, not_le] at hle
      refine List.pairwise_cons.2 ⟨fun x hx => ?_, ih hl.2⟩
      rcases List.mem_cons.1 ((insertStable_perm a l).subset hx) with rfl | hx
      · exact le_of_lt hle
      · exact hl.1 x hx

/-- The stable sort ascends by key. -/
theorem stableSort_sorted (l : List Node) :
    (stableSort l).Pairwise (fun x y => key x.2 ≤ key y.2) := by
  induction l with
  | nil => exact List.Pairwise.nil
  | cons a l ih => exact insertStable_sorted a _ ih

theorem insertStable_filter (k : List Nat) (a : Node) (l : List Node) :
    (insertStable a l).filter (fun x => decide (key x.2 = k))
      = (a :: l).filter (fun x => decide (key x.2 = k)) := by
  induction l with
  | nil => rfl
  | cons b l ih =>
    rw [insertStable]
    split
    · rfl
    · rename_i hle
      rw [strcasecmp_le_iff, not_le] at hle
      rw [List.filter_cons, ih]
      by_cases ha : key a.2 = k
      · have hb : ¬ key b.2 = k := by
          intro e
          rw [ha, e] at hle
          exact lt_irrefl _ hle
        simp [List.filter_cons, ha, hb]
      · by_cases hb : key b.2 = k <;> simp [List.filter_cons, ha, hb]

/-- The stable sort keeps the nodes of one key in their original order. -/
theorem stableSort_filter (k : List Nat) (l : List Node) :
    (stableSort l).filter (fun x => decide (key x.2 = k))
      = l.filter (fun x => decide (key x.2 = k)) := by
  induction l with
  | nil => rfl
  | cons a l ih =>
    rw [stableSort, insertStable_filter, List.filter_cons, List.filter_cons, ih]

/-- Two lists that ascend by key and hold, for every key, the same nodes of that key in the
same order are equal. -/
theorem eq_of_sorted_of_filter (l1 l2 : List Node)
    (h1 : l1.Pairwise (fun x y => key x.2 ≤ key y.2))
    (h2 : l2.Pairwise (fun x y => key x.2 ≤ key y.2))
    (hf : ∀ k, l1.filter (fun x => decide (key x.2 = k))
      = l2.filter (fun x => decide (key x.2 = k))) : l1 = l2 := by
  induction l1 generalizing l2 with
  | nil =>
    cases l2 with
    | nil => rfl
    | cons b l2 =>
      have := hf (key b.2)
      simp [List.filter_cons] at this
  | cons a l1 ih =>
    cases l2 with
    | nil =>
      have := hf (key a.2)
      simp [List.filter_cons] at this
    | cons b l2 =>
      rw [List.pairwise_cons] at h1 h2
      have ha : a ∈ b :: l2 := by
        have hm : a ∈ (a :: l1).filter (fun x => decide (key x.2 = key a.2)) := by
          simp [List.filter_cons]
        rw [hf] at hm
        exact List.mem_of_mem_filter hm
      have hb : b ∈ a :: l1 := by
        have hm : b ∈ (b :: l2).filter (fun x => decide (key x.2 = key b.2)) := by
          simp [List.filter_cons]
        rw [← hf] at hm
        exact List.mem_of_mem_filter hm
      have hba : key b.2 ≤ key a.2 := by
        rcases List.mem_cons.1 ha with rfl | ha
        · exact le_refl _
        · exact h2.1 a ha
      have hab : key a.2 ≤ key b.2 := by
        rcases List.mem_cons.1 hb with rfl | hb
        · exact le_refl _
        · exact h1.1 b hb
      have hk : key a.2 = key b.2 := le_antisymm hab hba
      have hfa := hf (key a.2)
      simp only [List.filter_cons, decide_True, if_true, hk.symm] at hfa
      obtain ⟨hab', -⟩ := List.cons.inj hfa
      subst hab'
      refine congrArg (List.cons a) (ih l2 h1.2 h2.2 (fun k => ?_))
      have hfk := hf k
      by_cases hka : key a.2 = k
      · simp only [List.filter_cons, hka, decide_True, if_true] at hfk
        exact (List.cons.inj hfk).2
      · simpa only [List.filter_cons, hka, decide_False, Bool.false_eq_true, if_false]
          using hfk

/-- The list-level sort of `merge_sort` is the stable sort of the reversed list. -/
theorem msortL_eq_stableSort_reverse (ns : List Node) : msortL ns = stableSort ns.reverse := by
  refine eq_of_sorted_of_filter _ _ (msortL_sorted ns) (stableSort_sorted _) (fun k => ?_)
  rw [msortL_filter, stableSort_filter, List.filter_reverse]

/-- A list of nodes that all compare equal is left as it is by the stable sort. -/
theorem stableSort_of_all_equal (l : List Node)
    (he : ∀ a ∈ l, ∀ b ∈ l, strcasecmp a.2 b.2 = 0) : stableSort l = l := by
  cases l with
  | nil => rfl
  | cons a l =>
    have hall : ∀ x ∈ a :: l, key x.2 = key a.2 := fun x hx =>
      (strcasecmp_eq_zero_iff _ _).1 (he x hx a (List.mem_cons_self _ _))
    have hsorted : (a :: l).Pairwise (fun x y => key x.2 ≤ key y.2) := by
      rw [List.pairwise_iff_forall_sublist]
      intro x y hxy
      have hx : x ∈ a :: l := hxy.subset (by simp)
      have hy : y ∈ a :: l := hxy.subset (by simp)
      rw [hall x hx, hall y hy]
    exact eq_of_sorted_of_filter _ _ (stableSort_sorted _) hsorted
      (fun k => stableSort_filter k _)


/-- The stable sort is stable: two nodes of equal key keep their relative order. -/
theorem stableSort_keeps_ties (l : List Node) (a b : Node) (hab : [a, b].Sublist l)
    (hk : key a.2 = key b.2) : [a, b].Sublist (stableSort l) := by
  have h1 : ([a, b].filter (fun x => decide (key x.2 = key b.2))).Sublist
      (l.filter (fun x => decide (key x.2 = key b.2))) := hab.filter _
  have h2 : [a, b].filter (fun x => decide (key x.2 = key b.2)) = [a, b] := by
    simp [List.filter_cons, hk]
  rw [h2, ← stableSort_filter] at h1
  exact h1.trans (List.filter_sublist _)

/-- C19: for every queue whose `size` field equals the length of its chain, the chain
`q_sort` leaves is the stable ascending sort (under `strcasecmp`) of the REVERSED input
chain: the merge takes the first-half node only when it is strictly smaller, so nodes that
compare equal come out in the reverse of their original order; in particular a queue whose
values all compare equal is exactly reversed. -/
theorem q_sort_refines_stableSort_reverse (fuel : Nat) (h : Heap) (q : queue_t)
    (ns : List Node) (hc : isChain h ns) (hh : q.head = headPtr ns)
    (hs : q.size = (ns.length : Int)) (hmax : ns.length ≤ SIZE_MAX)
    (hf : ns.length + 1 < fuel) :
    ∃ h' q', q_sort fuel h (some q) = some (h', some q') ∧
      isChain h' (stableSort ns.reverse) ∧ q'.head = headPtr (stableSort ns.reverse) ∧
      q'.tail = lastPtr (stableSort ns.reverse) ∧
      ((∀ a ∈ ns, ∀ b ∈ ns, strcasecmp a.2 b.2 = 0) → stableSort ns.reverse = ns.reverse) := by
  obtain ⟨h', e, c, -⟩ := q_sort_spec fuel h q ns hc hh hs hmax hf
  rw [msortL_eq_stableSort_reverse] at e c
  refine ⟨h', _, e, c, rfl, rfl, fun he => stableSort_of_all_equal _ (fun a ha b hb => ?_)⟩
  exact he a (List.mem_reverse.1 ha) b (List.mem_reverse.1 hb)

/-- Witness of C19 on the queue "Banana", "banana", whose two values compare equal: the
sorted chain is the reversed chain. -/
theorem q_sort_refines_stableSort_reverse_witness :
    stableSort [(1, Banana), (2, banana)].reverse = [(2, banana), (1, Banana)] ∧
      ∃ h' q', q_sort 4 tieState.1 (some tieState.2) = some (h', some q') ∧
        isChain h' (stableSort [(1, Banana), (2, banana)].reverse) ∧
        q'.head = headPtr (stableSort [(1, Banana), (2, banana)].reverse) ∧
        q'.tail = lastPtr (stableSort [(1, Banana), (2, banana)].reverse) ∧
        ((∀ a ∈ [(1, Banana), (2, banana)], ∀ b ∈ [(1, Banana), (2, banana)],
            strcasecmp a.2 b.2 = 0) →
          stableSort [(1, Banana), (2, banana)].reverse
            = [(1, Banana), (2, banana)].reverse) :=
  ⟨by decide,
    q_sort_refines_stableSort_reverse 4 tieState.1 tieState.2 [(1, Banana), (2, banana)]
      (by decide) (by decide) (by decide) (by decide) (by decide)⟩


/-! ## Sequences of calls keep the invariants -/

theorem toNat_of_eq_natCast (n : Nat) (x : Int) (hx : x = (n : Int)) : x.toNat = n := by
  subst hx
  simp

/-- One admissible call on a state that satisfies the invariants returns, leaves a state
that satisfies the invariants, and changes `q_size` by one exactly when it is an insertion
or a removal that returns true. -/
theorem runOp_spec (h : Heap) (q : Option queue_t) (op : Op) (hinv : stateInv h q)
    (hadm : admissible h q op) :
    ∃ h1 q1 ret, runOp h q op = some (h1, q1, ret) ∧ stateInv h1 q1 ∧
      q_size q1 = q_size q + (insCount op ret : Int) - (remCount op ret : Int) := by
  cases q with
  | none =>
    cases op with
    | insertHead s newh => exact ⟨h, none, false, rfl, trivial, by simp [q_size, insCount, remCount]⟩
    | insertTail s newh => exact ⟨h, none, false, rfl, trivial, by simp [q_size, insCount, remCount]⟩
    | removeHead sp c => exact ⟨h, none, false, rfl, trivial, by simp [q_size, insCount, remCount]⟩
    | reverse fuel => exact ⟨h, none, true, rfl, trivial, by simp [q_size, insCount, remCount]⟩
    | sort fuel => exact ⟨h, none, true, rfl, trivial, by simp [q_size, insCount, remCount]⟩
  | some q =>
    obtain ⟨ns, hq, hlen⟩ := hinv
    have hsz : (q_size (some q)).toNat = ns.length :=
      toNat_of_eq_natCast ns.length _ hq.2.2.2
    cases op with
    | insertHead s newh =>
      obtain ⟨hs, hnew⟩ := hadm
      by_cases h0 : newh = 0
      · subst h0
        refine ⟨h, some q, false, by simp [runOp, q_insert_head], ⟨ns, hq, hlen⟩, ?_⟩
        simp [insCount, remCount]
      · have hfresh : h newh = none := hnew.resolve_left h0
        obtain ⟨h1, q1, e, inv, hsize, -, -⟩ := q_insert_head_inv h q ns s newh hq h0 hfresh
        refine ⟨h1, some q1, true, e, ⟨_, inv, ?_⟩, ?_⟩
        · intro n hn
          rcases List.mem_cons.1 hn with rfl | hn
          · exact hs
          · exact hlen n hn
        · simp [q_size, insCount, remCount, hsize]
    | insertTail s newh =>
      obtain ⟨hs, hnew⟩ := hadm
      by_cases h0 : newh = 0
      · subst h0
        refine ⟨h, some q, false, by simp [runOp, q_insert_tail], ⟨ns, hq, hlen⟩, ?_⟩
        simp [insCount, remCount]
      · have hfresh : h newh = none := hnew.resolve_left h0
        obtain ⟨h1, q1, e, inv, -, hsize, -⟩ := q_insert_tail_spec h q ns s newh hq h0 hfresh
        refine ⟨h1, some q1, true, e, ⟨_, inv, ?_⟩, ?_⟩
        · intro n hn
          rcases List.mem_append.1 hn with hn | hn
          · exact hlen n hn
          · rw [List.mem_singleton] at hn
            subst hn
            exact hs
        · simp [q_size, insCount, remCount, hsize]
    | removeHead sp c =>
      cases ns with
      | nil =>
        have hq0 : q.head = 0 := hq.2.1
        refine ⟨h, some q, false, by simp [runOp, q_remove_head, hq0], ⟨[], hq, hlen⟩, ?_⟩
        simp [insCount, remCount]
      | cons n rest =>
        obtain ⟨hc, hh, ht, hs⟩ := hq
        obtain ⟨q1, hq1, ht1, hs1, e0, e1, c1⟩ := q_remove_head_spec h q n rest hc hh
        have inv1 : queueInv (upd h n.1 none) q1 rest := by
          refine ⟨c1, hq1, ?_, ?_⟩
          · rw [ht1]
            by_cases hr : rest = []
            · subst hr; rfl
            · rw [if_neg hr, ht, lastPtr_cons_of_ne_nil _ hr]
          · rw [hs1, hs]
            simp
        have hlen1 : ∀ m ∈ rest, strlen m.2 < SIZE_MAX :=
          fun m hm => hlen m (List.mem_cons_of_mem _ hm)
        have hsize : q_size (some q1) = q_size (some q) + ((0 : Nat) : Int) - ((1 : Nat) : Int) := by
          simp [q_size, hs1]
        cases sp with
        | none =>
          have e0' : q_remove_head h (some q) none c
              = some (upd h n.1 none, some q1, none, true) := by
            have hn0 : n.1 ≠ 0 := hc.1
            have := e0
            simp only [q_remove_head, hh, if_neg hn0, deref_head hc] at this ⊢
            exact this
          exact ⟨_, some q1, true, by simp [runOp, e0'], ⟨rest, inv1, hlen1⟩, hsize⟩
        | some buf =>
          have hadm' : headOf (some q) = 0 ∨ (0 < c ∧ c ≤ buf.length) := hadm
          obtain ⟨hc0, hb⟩ := hadm'.resolve_left (by
            show q.head ≠ 0
            rw [hh]; exact hc.1)
          have hcopy := copyOut_spec buf n.2 c hc0 hb (hlen n (List.mem_cons_self _ _))
          exact ⟨_, some q1, true, by simp [runOp, e1 buf c _ hcopy], ⟨rest, inv1, hlen1⟩,
            hsize⟩
    | reverse fuel =>
      obtain ⟨hc, hh, ht, hs⟩ := hq
      have hadm' : (q_size (some q)).toNat < fuel := hadm
      rw [hsz] at hadm'
      obtain ⟨h1, e, c, -⟩ := q_reverse_spec fuel h q ns hc hh hadm'
      refine ⟨h1, some (queue_t.mk (lastPtr ns) q.head q.size), true, by simp [runOp, e],
        ⟨ns.reverse, ⟨c, (headPtr_reverse ns).symm, ?_, ?_⟩, ?_⟩, ?_⟩
      · show q.head = lastPtr ns.reverse
        rw [lastPtr_reverse, hh]
      · show q.size = ((ns.reverse.length : Nat) : Int)
        rw [List.length_reverse, hs]
      · intro n hn
        exact hlen n (List.mem_reverse.1 hn)
      · simp [q_size, insCount, remCount]
    | sort fuel =>
      obtain ⟨hc, hh, ht, hs⟩ := hq
      have hadm' : (q_size (some q)).toNat + 1 < fuel ∧ (q_size (some q)).toNat ≤ SIZE_MAX :=
        hadm
      rw [hsz] at hadm'
      obtain ⟨h1, e, c, -⟩ := q_sort_spec fuel h q ns hc hh hs hadm'.2 hadm'.1
      refine ⟨h1, some (queue_t.mk (headPtr (msortL ns)) (lastPtr (msortL ns)) q.size), true,
        by simp [runOp, e], ⟨msortL ns, ⟨c, rfl, rfl, ?_⟩, ?_⟩, ?_⟩
      · show q.size = (((msortL ns).length : Nat) : Int)
        rw [(msortL_perm ns).length_eq, hs]
      · intro n hn
        exact hlen n ((msortL_perm ns).subset hn)
      · simp [q_size, insCount, remCount]

/-- An admissible sequence of calls on a state that satisfies the invariants returns and
leaves a state that satisfies the invariants, in which `q_size` has grown by the number of
insertions that returned true minus the number of removals that returned true. -/
theorem runOps_spec (ops : List Op) (h : Heap) (q : Option queue_t) (hinv : stateInv h q)
    (hadm : admissibleRun ops h q) :
    ∃ h' q' i r, runOps ops h q = some (h', q', i, r) ∧ stateInv h' q' ∧
      q_size q' = q_size q + (i : Int) - (r : Int) := by
  induction ops generalizing h q with
  | nil => exact ⟨h, q, 0, 0, rfl, hinv, by simp⟩
  | cons op ops ih =>
    obtain ⟨hadm1, hadm2⟩ := hadm
    obtain ⟨h1, q1, ret, e1, inv1, hs1⟩ := runOp_spec h q op hinv hadm1
    obtain ⟨h2, q2, i, r, e2, inv2, hs2⟩ := ih h1 q1 inv1 (hadm2 _ (by rw [e1]; rfl))
    refine ⟨h2, q2, i + insCount op ret, r + remCount op ret, by simp only [runOps, e1, e2],
      inv2, ?_⟩
    rw [hs2, hs1]
    push_cast
    omega

theorem stateInv_q_new (h : Heap) (ok : Bool) : stateInv h (q_new ok) := by
  cases ok with
  | false => trivial
  | true => exact ⟨[], ⟨trivial, rfl, rfl, rfl⟩, fun _ hn => absurd hn (List.not_mem_nil _)⟩


/-- After a sequence of `q_insert_head`, `q_insert_tail`, `q_remove_head`, `q_reverse` and
`q_sort` calls on the queue `q_new` returned, successful or failing, in which every call has
defined behaviour (`admissibleRun`), the sequence returns and a non-null queue has a chain
starting at `head` whose length is `size`; `tail` is `NULL` exactly when `head` is, and
otherwise `tail` is the last node of the chain, the node whose `next` link is `NULL`.  The
one call left out is `q_remove_head` on a non-empty queue with a non-null buffer that has
not `1 ≤ bufsize ≤` its size. -/
theorem invariants_on_defined_sequences (ops : List Op) (h0 : Heap) (ok : Bool)
    (hadm : admissibleRun ops h0 (q_new ok)) :
    ∃ h q i r, runOps ops h0 (q_new ok) = some (h, q, i, r) ∧
      ∀ q', q = some q' → ∃ ns, isChain h ns ∧ q'.head = headPtr ns ∧
        q'.size = (ns.length : Int) ∧ (q'.tail = 0 ↔ q'.head = 0) ∧
        (q'.head ≠ 0 → q'.tail = lastPtr ns ∧ q'.tail ≠ 0 ∧
          ∃ v, h q'.tail = some { value := v, next := 0 }) := by
  obtain ⟨h, q, i, r, e, inv, -⟩ := runOps_spec ops h0 (q_new ok) (stateInv_q_new h0 ok) hadm
  refine ⟨h, q, i, r, e, fun q' hq => ?_⟩
  subst hq
  obtain ⟨ns, ⟨hc, hh, ht, hs⟩, -⟩ := inv
  refine ⟨ns, hc, hh, hs, ?_, fun hne => ?_⟩
  · cases ns with
    | nil => simp [hh, ht, headPtr, lastPtr]
    | cons n rest =>
      have h1 : q'.head ≠ 0 := hh ▸ hc.1
      have h2 : q'.tail ≠ 0 := ht ▸ lastPtr_ne_zero hc (by simp)
      simp [h1, h2]
  · have hnn : ns ≠ [] := by
      intro e0
      subst e0
      exact hne hh
    refine ⟨ht, ht ▸ lastPtr_ne_zero hc hnn, ?_⟩
    rw [ht]
    exact last_next_null hc hnn

/-- The example sequence, which holds a failing removal with capacity 0 on the empty queue
and an allocation failure, ends with the queue "banana", "cherry" in the nodes 1 and 3. -/
theorem invariants_on_defined_sequences_example :
    (∃ res ∈ runOps exampleOps emptyHeap (q_new true),
        res.2.1 = some { head := 1, tail := 3, size := 2 } ∧
        queueInv res.1 { head := 1, tail := 3, size := 2 } [(1, banana), (3, cherry)]) ∧
      ∃ h q i r, runOps exampleOps emptyHeap (q_new true) = some (h, q, i, r) ∧
        ∀ q', q = some q' → ∃ ns, isChain h ns ∧ q'.head = headPtr ns ∧
          q'.size = (ns.length : Int) ∧ (q'.tail = 0 ↔ q'.head = 0) ∧
          (q'.head ≠ 0 → q'.tail = lastPtr ns ∧ q'.tail ≠ 0 ∧
            ∃ v, h q'.tail = some { value := v, next := 0 }) :=
  ⟨by decide, invariants_on_defined_sequences exampleOps emptyHeap true (by decide)⟩

/-- After a sequence of calls on the queue `q_new` returned in which every call has defined
behaviour, `q_size` returns the number of inserts that returned true minus the number of
removes that returned true. -/
theorem q_size_on_defined_sequences (ops : List Op) (h0 : Heap) (ok : Bool)
    (hadm : admissibleRun ops h0 (q_new ok)) :
    ∃ h q i r, runOps ops h0 (q_new ok) = some (h, q, i, r) ∧
      q_size q = (i : Int) - (r : Int) := by
  obtain ⟨h, q, i, r, e, -, hs⟩ := runOps_spec ops h0 (q_new ok) (stateInv_q_new h0 ok) hadm
  refine ⟨h, q, i, r, e, ?_⟩
  have h0' : q_size (q_new ok) = 0 := by cases ok <;> rfl
  rw [hs, h0']
  omega

/-- In the example sequence three inserts and one remove return true, one insert fails for
lack of memory and one remove finds the queue empty; `q_size` then returns 2. -/
theorem q_size_on_defined_sequences_example :
    (∃ res ∈ runOps exampleOps emptyHeap (q_new true),
        res.2.2 = (3, 1) ∧ q_size res.2.1 = 2) ∧
      ∃ h q i r, runOps exampleOps emptyHeap (q_new true) = some (h, q, i, r) ∧
        q_size q = (i : Int) - (r : Int) :=
  ⟨by decide, q_size_on_defined_sequences exampleOps emptyHeap true (by decide)⟩

/-- C13, the code at the failing input: after `q_new` and `insert_tail "a"` the invariants
hold for the one-node queue; the call `q_remove_head` with a non-null buffer of one byte and
capacity 0 then passes `SIZE_MAX` to `strncpy` and writes outside the buffer, so the call
and with it the sequence has no defined result and no state that satisfies the invariants is
reached.  The same sequence with a `NULL` buffer returns and leaves the empty queue, which
is what the claim expects of the call with capacity 0. -/
theorem invariants_lost_at_zero_capacity :
    (∃ res ∈ runOps [Op.insertTail str_a 1] emptyHeap (q_new true),
        res.2.1 = some { head := 1, tail := 1, size := 1 } ∧
        queueInv res.1 { head := 1, tail := 1, size := 1 } [(1, str_a)] ∧
        runOp res.1 res.2.1 (Op.removeHead (some [170]) 0) = none) ∧
      copyOut [170] str_a 0 = none ∧
      runOps zeroCapacityOps emptyHeap (q_new true) = none ∧
      ¬ admissibleRun zeroCapacityOps emptyHeap (q_new true) ∧
      ∃ res ∈ runOps nullBufferOps emptyHeap (q_new true),
        res.2.1 = some { head := 0, tail := 0, size := 0 } ∧
        queueInv res.1 { head := 0, tail := 0, size := 0 } [] :=
  ⟨⟨_, rfl, rfl, by decide, rfl⟩, by decide, rfl, by decide, by decide⟩

/-- C14, the code at the failing input: after `q_new` and `insert_tail "a"`, which returns
true, `q_size` returns 1; the call `q_remove_head` with a non-null buffer of one byte and
capacity 0 then writes outside the buffer, so the sequence has no defined result and
`q_size` has nothing to return.  With a `NULL` buffer the remove returns true and `q_size`
returns 1 - 1 = 0, which is what the claim expects of the call with capacity 0. -/
theorem q_size_lost_at_zero_capacity :
    (∃ res ∈ runOps [Op.insertTail str_a 1] emptyHeap (q_new true),
        res.2.2 = (1, 0) ∧ q_size res.2.1 = 1) ∧
      runOps zeroCapacityOps emptyHeap (q_new true) = none ∧
      ∃ res ∈ runOps nullBufferOps emptyHeap (q_new true),
        res.2.2 = (1, 1) ∧ q_size res.2.1 = 0 :=
  ⟨by decide, rfl, by decide⟩

end Queue
